import Mathlib

/-!
Formal model of the caching / dependency-ordered-commit subsystems of the
`belopash/typeorm-store` package (an entity cache, change trackers, a
commit-order resolver, a deferred batch loader and a chain transaction
manager), together with theorems settling the specification's assertions
about them.

Entity ids are strings.  JavaScript `Map`s keyed by ids are modelled by
insertion-ordered association lists (`OMap`): `Map.prototype.set` on an
existing key keeps the entry at its original position, `delete` removes it,
and iteration follows insertion order, which is exactly what the list
representation provides.  Functions that `throw` are modelled with
`Except String`.
-/

/-- Insertion-ordered map from string keys to `α`, mirroring a JS `Map`. -/
abbrev OMap (α : Type) : Type := List (String × α)

/-- `Map.prototype.get`. -/
def getO {α : Type} : OMap α → String → Option α
  | [], _ => none
  | (k, v) :: rest, key => if k = key then some v else getO rest key

/-- `Map.prototype.set`: replaces in place if the key is present, appends otherwise. -/
def setO {α : Type} : OMap α → String → α → OMap α
  | [], key, v => [(key, v)]
  | (k, w) :: rest, key, v =>
    if k = key then (key, v) :: rest else (k, w) :: setO rest key v

/-- `Map.prototype.delete` (keys are unique in a JS map, so at most one entry matches). -/
def delO {α : Type} : OMap α → String → OMap α
  | [], _ => []
  | (k, w) :: rest, key => if k = key then rest else (k, w) :: delO rest key

/-- Keys of an ordered map, in order. -/
def keysO {α : Type} (m : OMap α) : List String := m.map Prod.fst

theorem getO_setO_self {α : Type} (m : OMap α) (key : String) (v : α) :
    getO (setO m key v) key = some v := by
  induction m with
  | nil => simp [setO, getO]
  | cons p rest ih =>
    obtain ⟨k, w⟩ := p
    by_cases h : k = key <;> simp [setO, getO, h, ih]

theorem getO_eq_none_of_not_mem {α : Type} (m : OMap α) (key : String)
    (h : key ∉ keysO m) : getO m key = none := by
  induction m with
  | nil => rfl
  | cons p rest ih =>
    obtain ⟨k, w⟩ := p
    simp only [keysO, List.map_cons, List.mem_cons, not_or] at h
    have hk : k ≠ key := fun hEq => h.1 hEq.symm
    simpa [getO, hk] using ih (by simpa [keysO] using h.2)

theorem not_mem_keysO_delO {α : Type} (m : OMap α) (key : String)
    (hnd : (keysO m).Nodup) : key ∉ keysO (delO m key) := by
  induction m with
  | nil => simp [delO, keysO]
  | cons p rest ih =>
    obtain ⟨k, w⟩ := p
    simp only [keysO, List.map_cons, List.nodup_cons] at hnd
    by_cases h : k = key
    · subst h
      simpa [delO, keysO] using hnd.1
    · intro hmem
      simp only [delO, if_neg h, keysO, List.map_cons, List.mem_cons] at hmem
      rcases hmem with hmem | hmem
      · exact h hmem.symm
      · exact ih hnd.2 (by simpa [keysO] using hmem)

theorem getO_delO_self {α : Type} (m : OMap α) (key : String)
    (hnd : (keysO m).Nodup) : getO (delO m key) key = none :=
  getO_eq_none_of_not_mem _ _ (not_mem_keysO_delO m key hnd)

/-!
Change trackers.  The repository contains several superseding iterations of
the per-identity Insert/Upsert/Remove state machine:

* `ChangeMap` (`src/utils/changeMap.ts`),
* `UpdatesTracker` (`src/changeTracker.ts`, two iterations in the file),
* `UpdateMap` (`src/updateMap.ts` iterations; one of them keyed by metadata),
* `StateManager` (`src/utils/stateManager.ts`), the one wired into the
  current `Store` via `src/database.ts`.

Each is modelled over a single entity type: the per-metadata outer map of the
sources always resolves to one inner id-keyed map for a fixed entity type, so
the inner `OMap` is the whole state.  Logging calls are ignored.
-/

/-- `UpdateType` as in `src/changeTracker.ts` and `src/updateMap.ts`. -/
inductive UpdateType
  | Insert
  | Upsert
  | Remove
  deriving DecidableEq, Repr

namespace ChangeMap

/-- `ChangeType` of `src/utils/changeMap.ts`. -/
inductive ChangeType
  | Insert
  | Upsert
  | Remove
  deriving DecidableEq, Repr

/-- `ChangeMap.insert`: `undefined → Insert`, `Remove → Upsert` (resurrection),
`Insert/Upsert → throw`.  The source message interpolates the metadata name,
which the single-type model drops. -/
def insert (m : OMap ChangeType) (id : String) : Except String (OMap ChangeType) :=
  match getO m id with
  | none => .ok (setO m id .Insert)
  | some .Remove => .ok (setO m id .Upsert)
  | some .Insert => .error (id ++ " is already marked as Insert or Upsert")
  | some .Upsert => .error (id ++ " is already marked as Insert or Upsert")

/-- `ChangeMap.upsert`: `Insert/Upsert` keep their state (only a debug log), anything
else becomes `Upsert`. -/
def upsert (m : OMap ChangeType) (id : String) : OMap ChangeType :=
  match getO m id with
  | some .Insert => m
  | some .Upsert => m
  | _ => setO m id .Upsert

/-- `ChangeMap.remove`: an uncommitted `Insert` is erased outright, `Remove` stays,
anything else becomes `Remove`. -/
def remove (m : OMap ChangeType) (id : String) : OMap ChangeType :=
  match getO m id with
  | some .Insert => delO m id
  | some .Remove => m
  | _ => setO m id .Remove

end ChangeMap

namespace UpdatesTrackerV1

/-- First `UpdatesTracker.insert` iteration (`src/changeTracker.ts`, lines 29-36):
throws on pending `Insert/Upsert` and otherwise marks `Insert` - including after a
pending `Remove`, where no resurrection handling exists yet. -/
def insert (m : OMap UpdateType) (id : String) : Except String (OMap UpdateType) :=
  match getO m id with
  | some .Insert => .error ("ID " ++ id ++ " is already marked as insert or upsert")
  | some .Upsert => .error ("ID " ++ id ++ " is already marked as insert or upsert")
  | _ => .ok (setO m id .Insert)

/-- First `UpdatesTracker.remove` iteration: erases a pending `Insert`, otherwise
marks `Remove`. -/
def remove (m : OMap UpdateType) (id : String) : OMap UpdateType :=
  match getO m id with
  | some .Insert => delO m id
  | _ => setO m id .Remove

end UpdatesTrackerV1

namespace UpdateMapM

/-- `UpdateMap.insert` of `src/updateMap.ts` (metadata-keyed iteration, also the
second `UpdatesTracker.insert` of `src/changeTracker.ts`): the `switch` lists
`case UpdateType.Insert:` twice where the second occurrence was clearly meant to
be `UpdateType.Upsert`, so a pending `Upsert` matches no case and the call
silently returns with the map untouched. -/
def insert (m : OMap UpdateType) (id : String) : Except String (OMap UpdateType) :=
  match getO m id with
  | none => .ok (setO m id .Insert)
  | some .Remove => .ok (setO m id .Upsert)
  | some .Insert => .error ("ID " ++ id ++ " is already marked as insert or upsert")
  | some .Upsert => .ok m

end UpdateMapM

namespace StateManager

/-- `ChangeType` of `src/utils/stateManager.ts`. -/
inductive ChangeType
  | Insert
  | Upsert
  | Delete
  deriving DecidableEq, Repr

/-- Entities of the single-entity-type fragment used for the state-machine and
flush claims: an id plus no further relations (the cache-merge side effects of
`StateManager` are modelled separately with the cache maps below). -/
structure Entity where
  id : String
  deriving DecidableEq, Repr

/-- `StateManager.insert`: `undefined → Insert`, `Insert/Upsert → throw`,
`Delete → Upsert` (resurrection). -/
def insert (m : OMap ChangeType) (e : Entity) : Except String (OMap ChangeType) :=
  match getO m e.id with
  | none => .ok (setO m e.id .Insert)
  | some .Insert => .error ("Entity " ++ e.id ++ " is already marked")
  | some .Upsert => .error ("Entity " ++ e.id ++ " is already marked")
  | some .Delete => .ok (setO m e.id .Upsert)

/-- `StateManager.upsert`: `undefined/Upsert → Upsert`, `Insert` keeps `Insert`
(only the cached value is refreshed), `Delete → Upsert`. -/
def upsert (m : OMap ChangeType) (e : Entity) : Except String (OMap ChangeType) :=
  match getO m e.id with
  | none => .ok (setO m e.id .Upsert)
  | some .Upsert => .ok (setO m e.id .Upsert)
  | some .Insert => .ok m
  | some .Delete => .ok (setO m e.id .Upsert)

/-- `StateManager.delete`: `undefined/Upsert/Insert → Delete` (note: a pending
`Insert` is NOT erased, unlike every other tracker iteration), `Delete` stays. -/
def delete (m : OMap ChangeType) (id : String) : OMap ChangeType :=
  match getO m id with
  | some .Delete => m
  | _ => setO m id .Delete

/-- In the single-entity-type fragment every relation of the type is a
self-relation, and `StateManager.processEntityRelations` skips those
(`if (metadata === inverseMetadata) continue`), so it reduces to the identity
with no extra upsert. -/
def processEntityRelations (e : Entity) : Entity × Option Entity := (e, none)

/-- One element of the change-set list handed to the database writer by
`StateManager.performUpdate`; `extraUpserts` are emitted with type `Upsert`. -/
inductive ChangeSet
  | inserts (entities : List Entity)
  | upserts (entities : List Entity)
  | deletes (ids : List String)
  deriving DecidableEq, Repr

/-- The per-id classification loop of `StateManager.performUpdate` for one entity
type: `Insert`/`Upsert` require a cached value (`assert`, modelled as `none`) and
go through `processEntityRelations`; `Delete` contributes the id. -/
def collectChanges (m : OMap ChangeType) (cache : String → Option Entity) :
    Option (List Entity × List Entity × List String × List Entity) :=
  match m with
  | [] => some ([], [], [], [])
  | (id, t) :: rest =>
    match collectChanges rest cache with
    | none => none
    | some (ins, ups, dels, extras) =>
      match t with
      | .Insert =>
        match cache id with
        | none => none
        | some e =>
          let pr := processEntityRelations e
          some (pr.1 :: ins, ups, dels,
            (match pr.2 with | some x => [x] | none => []) ++ extras)
      | .Upsert =>
        match cache id with
        | none => none
        | some e =>
          let pr := processEntityRelations e
          some (ins, pr.1 :: ups, dels,
            (match pr.2 with | some x => [x] | none => []) ++ extras)
      | .Delete => some (ins, ups, id :: dels, extras)

/-- `StateManager.performUpdate` for one entity type: nothing when the state map
is empty, otherwise the change-set list `[inserts, upserts, deletes,
extraUpserts]` (each section only when nonempty) handed to the writer callback. -/
def performUpdate (m : OMap ChangeType) (cache : String → Option Entity) :
    Option (List ChangeSet) :=
  if m = [] then some []
  else
    match collectChanges m cache with
    | none => none
    | some (ins, ups, dels, extras) =>
      some ((if ins = [] then [] else [ChangeSet.inserts ins]) ++
        (if ups = [] then [] else [ChangeSet.upserts ups]) ++
        (if dels = [] then [] else [ChangeSet.deletes dels]) ++
        (if extras = [] then [] else [ChangeSet.upserts extras]))

end StateManager

deriving instance DecidableEq for Except

/-- C3 counterexample: in the current tracker (`StateManager`,
`src/utils/stateManager.ts`), `delete` after an uncommitted `Insert` does NOT
erase the record - it marks the identity `Delete`, and the subsequent flush
(`performUpdate`) emits a delete write for an identity that was never inserted,
contradicting the claim that nothing is written. -/
theorem c3_counterexample :
    StateManager.insert ([] : OMap StateManager.ChangeType) ⟨"p1"⟩ =
      .ok [("p1", StateManager.ChangeType.Insert)] ∧
    StateManager.delete [("p1", StateManager.ChangeType.Insert)] "p1" =
      [("p1", StateManager.ChangeType.Delete)] ∧
    getO (StateManager.delete [("p1", StateManager.ChangeType.Insert)] "p1") "p1" =
      some StateManager.ChangeType.Delete ∧
    StateManager.performUpdate [("p1", StateManager.ChangeType.Delete)] (fun _ => none) =
      some [StateManager.ChangeSet.deletes ["p1"]] := by
  decide

/-- C3 (amended): in the `ChangeMap` tracker (`src/utils/changeMap.ts`, as well as
the `UpdatesTracker`/`UpdateMap` iterations), `remove` on an identity in `Insert`
state erases the change record entirely, so the pending-update map holds nothing
for that identity and a subsequent flush writes nothing for it; the current
`StateManager.delete` instead marks the identity `Delete` (see the
counterexample). -/
theorem c3_theorem (m : OMap ChangeMap.ChangeType) (id : String)
    (hnd : (keysO m).Nodup) (h : getO m id = some ChangeMap.ChangeType.Insert) :
    getO (ChangeMap.remove m id) id = none ∧ id ∉ keysO (ChangeMap.remove m id) := by
  unfold ChangeMap.remove
  rw [h]
  exact ⟨getO_delO_self _ _ hnd, not_mem_keysO_delO _ _ hnd⟩

/-- C3 witness: concrete instance of `c3_theorem`. -/
theorem c3_witness :
    (keysO [("a", ChangeMap.ChangeType.Insert)]).Nodup ∧
    getO [("a", ChangeMap.ChangeType.Insert)] "a" = some ChangeMap.ChangeType.Insert ∧
    (getO (ChangeMap.remove [("a", ChangeMap.ChangeType.Insert)] "a") "a" = none ∧
      "a" ∉ keysO (ChangeMap.remove [("a", ChangeMap.ChangeType.Insert)] "a")) :=
  ⟨by decide, by decide, c3_theorem _ _ (by decide) (by decide)⟩

/-- C4 counterexample: in the first `UpdatesTracker` iteration
(`src/changeTracker.ts`, lines 29-36; likewise the first `UpdateMap` iteration),
`insert` after a pending `Remove` marks the identity `Insert`, not `Upsert`,
refuting the claim that a deleted identity is always resurrected as `Upsert`. -/
theorem c4_counterexample :
    UpdatesTrackerV1.remove ([] : OMap UpdateType) "x" = [("x", UpdateType.Remove)] ∧
    UpdatesTrackerV1.insert [("x", UpdateType.Remove)] "x" =
      .ok [("x", UpdateType.Insert)] ∧
    UpdateType.Insert ≠ UpdateType.Upsert := by
  decide

/-- C4 (amended): in the `ChangeMap` tracker and in the current `StateManager`
(the iterations with resurrection handling), `insert` and `upsert` on an identity
whose state is `Delete`/`Remove` transition it to `Upsert`, never to `Insert`;
the two earliest tracker iterations instead mark `Insert` (see the
counterexample). -/
theorem c4_theorem (m1 : OMap ChangeMap.ChangeType) (m2 : OMap StateManager.ChangeType)
    (id : String) (e : StateManager.Entity)
    (h1 : getO m1 id = some ChangeMap.ChangeType.Remove)
    (h2 : getO m2 id = some StateManager.ChangeType.Delete)
    (he : e.id = id) :
    (∃ m', ChangeMap.insert m1 id = .ok m' ∧
      getO m' id = some ChangeMap.ChangeType.Upsert) ∧
    getO (ChangeMap.upsert m1 id) id = some ChangeMap.ChangeType.Upsert ∧
    (∃ m', StateManager.insert m2 e = .ok m' ∧
      getO m' id = some StateManager.ChangeType.Upsert) ∧
    (∃ m', StateManager.upsert m2 e = .ok m' ∧
      getO m' id = some StateManager.ChangeType.Upsert) := by
  subst he
  refine ⟨⟨setO m1 e.id .Upsert, ?_, getO_setO_self ..⟩, ?_,
    ⟨setO m2 e.id .Upsert, ?_, getO_setO_self ..⟩,
    ⟨setO m2 e.id .Upsert, ?_, getO_setO_self ..⟩⟩
  · simp [ChangeMap.insert, h1]
  · simp [ChangeMap.upsert, h1, getO_setO_self]
  · simp [StateManager.insert, h2]
  · simp [StateManager.upsert, h2]

/-- C4 witness: concrete instance of `c4_theorem`. -/
theorem c4_witness :
    getO [("a", ChangeMap.ChangeType.Remove)] "a" = some ChangeMap.ChangeType.Remove ∧
    getO [("a", StateManager.ChangeType.Delete)] "a" =
      some StateManager.ChangeType.Delete ∧
    (StateManager.Entity.mk "a").id = "a" ∧
    ((∃ m', ChangeMap.insert [("a", ChangeMap.ChangeType.Remove)] "a" = .ok m' ∧
        getO m' "a" = some ChangeMap.ChangeType.Upsert) ∧
      getO (ChangeMap.upsert [("a", ChangeMap.ChangeType.Remove)] "a") "a" =
        some ChangeMap.ChangeType.Upsert ∧
      (∃ m', StateManager.insert [("a", StateManager.ChangeType.Delete)] ⟨"a"⟩ = .ok m' ∧
        getO m' "a" = some StateManager.ChangeType.Upsert) ∧
      (∃ m', StateManager.upsert [("a", StateManager.ChangeType.Delete)] ⟨"a"⟩ = .ok m' ∧
        getO m' "a" = some StateManager.ChangeType.Upsert)) :=
  ⟨by decide, by decide, by decide,
    c4_theorem _ _ _ _ (by decide) (by decide) (by decide)⟩

/-- C5 (code bug): `UpdateMap.insert` of `src/updateMap.ts` (and the second
`UpdatesTracker.insert` of `src/changeTracker.ts`) lists `case UpdateType.Insert:`
twice in its `switch` - the second occurrence was plainly meant to be
`UpdateType.Upsert`, as its own error message says "insert or upsert" - so
calling `insert` on an identity already pending `Upsert` silently succeeds with
the state untouched instead of failing loudly.  `ChangeMap.insert`,
`StateManager.insert` and the first `UpdatesTracker.insert` all throw as the
claim states (and leave the state unchanged, since they throw before mutating). -/
theorem c5_theorem :
    UpdateMapM.insert [("x", UpdateType.Upsert)] "x" = .ok [("x", UpdateType.Upsert)] ∧
    ChangeMap.insert [("x", ChangeMap.ChangeType.Upsert)] "x" =
      .error "x is already marked as Insert or Upsert" ∧
    StateManager.insert [("x", StateManager.ChangeType.Upsert)] ⟨"x"⟩ =
      .error "Entity x is already marked" ∧
    UpdatesTrackerV1.insert [("x", UpdateType.Upsert)] "x" =
      .error "ID x is already marked as insert or upsert" := by
  decide

namespace StoreWithCache

/-!
Model of `StoreWithCache.collectChangeSets` / `commit` (`src/store.ts`) for one
entity type.  A cached entity is reduced to its id together with the values of
the type's self-referencing relations (`getSelfRelations`), which is all the
classification loop inspects; `none` in `selfRels` stands for a
`null`/`undefined` relation value.  The cache is a map from id to
`Option (Option Entity)`: outer `none` = no cache entry, inner `none` = entry
whose `value` is `null`.
-/

/-- Cached entity restricted to what `collectChangeSets` reads. -/
structure Entity where
  id : String
  selfRels : List (Option String)
  deriving DecidableEq, Repr

/-- The delay scan of `collectChangeSets`: some self-referencing relation of the
cached value points at an id that is itself pending as `Insert` in the same
update map (`null` relation values are skipped). -/
def isDelayed (e : Entity) (full : OMap UpdateType) : Bool :=
  e.selfRels.any fun v =>
    match v with
    | none => false
    | some rid => decide (getO full rid = some UpdateType.Insert)

/-- Change sets collected for one entity type before writing. -/
structure ChangeSet where
  inserts : List Entity
  upserts : List Entity
  delayedUpserts : List Entity
  removes : List Entity
  deriving DecidableEq, Repr

/-- The classification loop of `collectChangeSets`, iterating the remaining
update-map entries while looking pending states up in the full map; the
`assert(cached?.value != null)` for `Insert`/`Upsert` is modelled as `none`.
An entity created by `em.create(entityClass, {id})` for a `Remove` carries only
its id. -/
def collectFrom (full : OMap UpdateType) (cache : String → Option (Option Entity)) :
    List (String × UpdateType) → Option ChangeSet
  | [] => some ⟨[], [], [], []⟩
  | (id, t) :: rest =>
    match collectFrom full cache rest with
    | none => none
    | some cs =>
      match t with
      | .Insert =>
        match cache id with
        | some (some e) => some {cs with inserts := e :: cs.inserts}
        | _ => none
      | .Upsert =>
        match cache id with
        | some (some e) =>
          some (if isDelayed e full then {cs with delayedUpserts := e :: cs.delayedUpserts}
            else {cs with upserts := e :: cs.upserts})
        | _ => none
      | .Remove => some {cs with removes := ⟨id, []⟩ :: cs.removes}

/-- `StoreWithCache.collectChangeSets` for one entity type. -/
def collectChangeSets (um : OMap UpdateType) (cache : String → Option (Option Entity)) :
    Option ChangeSet :=
  collectFrom um cache um

/-- One write batch issued by `commit` for an entity type (removes are issued in a
separate reverse-order loop and are not part of this claim). -/
inductive Op
  | upsertBatch (entities : List Entity)
  | insertBatch (entities : List Entity)
  deriving DecidableEq, Repr

/-- The write sequence `commit` issues for one entity type: plain upserts, then
inserts, then the delayed upserts. -/
def commitOps (cs : ChangeSet) : List Op :=
  [Op.upsertBatch cs.upserts, Op.insertBatch cs.inserts, Op.upsertBatch cs.delayedUpserts]

/-- Entities an update-map entry contributes to the delayed-upsert pass. -/
def delayedSelector (full : OMap UpdateType) (cache : String → Option (Option Entity))
    (p : String × UpdateType) : Option Entity :=
  match p.2, cache p.1 with
  | .Upsert, some (some e) => if isDelayed e full then some e else none
  | _, _ => none

/-- Entities an update-map entry contributes to the plain upsert pass. -/
def upsertSelector (full : OMap UpdateType) (cache : String → Option (Option Entity))
    (p : String × UpdateType) : Option Entity :=
  match p.2, cache p.1 with
  | .Upsert, some (some e) => if isDelayed e full then none else some e
  | _, _ => none

/-- Entities an update-map entry contributes to the insert pass. -/
def insertSelector (cache : String → Option (Option Entity))
    (p : String × UpdateType) : Option Entity :=
  match p.2, cache p.1 with
  | .Insert, some (some e) => some e
  | _, _ => none

theorem collectFrom_spec (full : OMap UpdateType)
    (cache : String → Option (Option Entity)) :
    ∀ (l : List (String × UpdateType)) (cs : ChangeSet),
      collectFrom full cache l = some cs →
      cs.delayedUpserts = l.filterMap (delayedSelector full cache) ∧
      cs.upserts = l.filterMap (upsertSelector full cache) ∧
      cs.inserts = l.filterMap (insertSelector cache) := by
  intro l
  induction l with
  | nil =>
    intro cs h
    simp only [collectFrom, Option.some.injEq] at h
    subst h
    simp
  | cons p rest ih =>
    intro cs h
    obtain ⟨id, t⟩ := p
    simp only [collectFrom] at h
    cases hrest : collectFrom full cache rest with
    | none => rw [hrest] at h; exact absurd h (by simp)
    | some cs0 =>
      rw [hrest] at h
      obtain ⟨hd, hu, hi⟩ := ih cs0 hrest
      cases t with
      | Insert =>
        cases hc : cache id with
        | none => rw [hc] at h; exact absurd h (by simp)
        | some v =>
          cases v with
          | none => rw [hc] at h; exact absurd h (by simp)
          | some e =>
            rw [hc] at h
            simp only [Option.some.injEq] at h
            subst h
            refine ⟨?_, ?_, ?_⟩ <;>
              simp [List.filterMap_cons, delayedSelector, upsertSelector,
                insertSelector, hc, hd, hu, hi]
      | Upsert =>
        cases hc : cache id with
        | none => rw [hc] at h; exact absurd h (by simp)
        | some v =>
          cases v with
          | none => rw [hc] at h; exact absurd h (by simp)
          | some e =>
            rw [hc] at h
            simp only [Option.some.injEq] at h
            by_cases hdel : isDelayed e full
            · rw [if_pos hdel] at h
              subst h
              refine ⟨?_, ?_, ?_⟩ <;>
                simp [List.filterMap_cons, delayedSelector, upsertSelector,
                  insertSelector, hc, hdel, hd, hu, hi]
            · rw [if_neg hdel] at h
              subst h
              refine ⟨?_, ?_, ?_⟩ <;>
                simp [List.filterMap_cons, delayedSelector, upsertSelector,
                  insertSelector, hc, hdel, hd, hu, hi]
      | Remove =>
        simp only [Option.some.injEq] at h
        subst h
        refine ⟨?_, ?_, ?_⟩ <;>
          simp [List.filterMap_cons, delayedSelector, upsertSelector,
            insertSelector, hd, hu, hi]

end StoreWithCache

/-- C2 (confirmed): when `collectChangeSets` succeeds for an entity type, the
pending `Upsert`s whose self-referencing relation points at an id pending as
`Insert` of the same type are exactly the `delayedUpserts`, every other pending
`Upsert` lands in `upserts`, the pending `Insert`s land in `inserts`, and
`commit` writes the three batches in the order: plain upserts, then inserts,
then the delayed upserts. -/
theorem c2_theorem (um : OMap UpdateType)
    (cache : String → Option (Option StoreWithCache.Entity))
    (cs : StoreWithCache.ChangeSet)
    (h : StoreWithCache.collectChangeSets um cache = some cs) :
    cs.delayedUpserts = um.filterMap (StoreWithCache.delayedSelector um cache) ∧
    cs.upserts = um.filterMap (StoreWithCache.upsertSelector um cache) ∧
    cs.inserts = um.filterMap (StoreWithCache.insertSelector cache) ∧
    StoreWithCache.commitOps cs =
      [StoreWithCache.Op.upsertBatch cs.upserts,
        StoreWithCache.Op.insertBatch cs.inserts,
        StoreWithCache.Op.upsertBatch cs.delayedUpserts] := by
  obtain ⟨hd, hu, hi⟩ := StoreWithCache.collectFrom_spec um cache um cs h
  exact ⟨hd, hu, hi, rfl⟩

/-- C2 witness: a pending `Upsert` of `"a"` whose self-relation points at `"b"`,
itself pending as `Insert`, is classified into the delayed pass; concrete
instance of `c2_theorem`. -/
theorem c2_witness :
    StoreWithCache.collectChangeSets
        [("a", UpdateType.Upsert), ("b", UpdateType.Insert)]
        (fun s => if s = "a" then some (some ⟨"a", [some "b"]⟩)
          else if s = "b" then some (some ⟨"b", []⟩) else none) =
      some ⟨[⟨"b", []⟩], [], [⟨"a", [some "b"]⟩], []⟩ ∧
    ([⟨"a", [some "b"]⟩] : List StoreWithCache.Entity) =
      ([("a", UpdateType.Upsert), ("b", UpdateType.Insert)] :
        OMap UpdateType).filterMap
        (StoreWithCache.delayedSelector
          [("a", UpdateType.Upsert), ("b", UpdateType.Insert)]
          (fun s => if s = "a" then some (some ⟨"a", [some "b"]⟩)
            else if s = "b" then some (some ⟨"b", []⟩) else none)) :=
  ⟨by decide,
    (c2_theorem [("a", UpdateType.Upsert), ("b", UpdateType.Insert)]
      (fun s => if s = "a" then some (some ⟨"a", [some "b"]⟩)
        else if s = "b" then some (some ⟨"b", []⟩) else none)
      ⟨[⟨"b", []⟩], [], [⟨"a", [some "b"]⟩], []⟩ (by decide)).1⟩

namespace TypeormDatabase

/-!
Model of `TypeormDatabase.transactHot2` (`src/database.ts`).  The persisted
state read by `getState` is taken as input; the sequence of database writes the
transaction would perform is returned as a trace, together with `some message`
when an `assert` fires (the surrounding transaction then rolls back, so an
error after zero emitted writes means the persisted data is untouched).
Reads (`SELECT`s) are not part of the trace.  JS runtime failures from indexing
past the ends of arrays are modelled as a `"TypeError"` result.
-/

/-- A block pointer as stored in the status / hot-block tables. -/
structure HashAndHeight where
  height : Int
  hash : String
  deriving DecidableEq, Repr

/-- The persisted chain state: the status row plus the ordered hot-block list. -/
structure DatabaseState where
  height : Int
  hash : String
  nonce : Int
  top : List HashAndHeight
  deriving DecidableEq, Repr

/-- The finalized head recorded in the status row. -/
def DatabaseState.head (st : DatabaseState) : HashAndHeight := ⟨st.height, st.hash⟩

/-- Argument record of `transactHot`. -/
structure HotTxInfo where
  baseHead : HashAndHeight
  newBlocks : List HashAndHeight
  finalizedHead : HashAndHeight
  deriving DecidableEq, Repr

/-- One database write performed inside the hot transaction. -/
inductive Write
  | rollbackBlock (height : Int)
  | finalizedUpdates (sliceBeg sliceEnd : Int)
  | insertHotBlock (b : HashAndHeight)
  | hotUpdates (index : Nat)
  | deleteHotBlocks (finalizedHeight : Int)
  | updateStatus (next : HashAndHeight)
  deriving DecidableEq, Repr

/-- `assertChainContinuity`: every block's height is its predecessor's height
plus one, starting from `base`. -/
def assertChainContinuity : HashAndHeight → List HashAndHeight → Bool
  | _, [] => true
  | prev, b :: rest => decide (b.height = prev.height + 1) && assertChainContinuity b rest

/-- `assertStateInvariants` applied to the persisted state: the height is a safe
integer and the hot blocks continue the finalized head. -/
def stateInvariantsOk (st : DatabaseState) : Bool :=
  decide (st.height.natAbs ≤ 2 ^ 53 - 1) && assertChainContinuity st.head st.top

/-- The race-condition message used by the `transact`/`transactHot` asserts. -/
def raceMsg : String :=
  "status table was updated by foreign process, make sure no other processor is running"

/-- The message of the chain-continuity assertion. -/
def continuityMsg : String := "blocks must form a continues chain"

/-- `transactHot2`: state checks, chain-continuity and race asserts, rollback of
the hot blocks beyond the base head, the finalized and hot write batches, hot
block pruning and the conditional status update, in source order. -/
def transactHot2 (st : DatabaseState) (info : HotTxInfo) : List Write × Option String :=
  if stateInvariantsOk st = true then
    let chain := st.head :: st.top
    if assertChainContinuity info.baseHead info.newBlocks = true then
      if info.finalizedHead.height ≤ ((info.newBlocks.getLast?).getD info.baseHead).height then
        if chain.any (fun b => b.hash = info.baseHead.hash) then
          if info.newBlocks = [] ∧ ¬(st.top.getLastD st.head).hash = info.baseHead.hash then
            ([], some raceMsg)
          else
            if st.height ≤ info.finalizedHead.height then
              let rollbackPos : Int := info.baseHead.height + 1 - st.height
              let rbIdx : List Nat :=
                ((List.range chain.length).filter (fun i : Nat => rollbackPos ≤ (i : Int))).reverse
              let w1 : List Write :=
                rbIdx.map (fun i => .rollbackBlock ((chain.getD i st.head).height))
              if rollbackPos < 0 then (w1, some "TypeError")
              else
                let w2 : List Write :=
                  if info.newBlocks.length ≠ 0 then
                    let b0 := info.newBlocks.headD ⟨0, ""⟩
                    let finalizedEnd : Int := info.finalizedHead.height - b0.height + 1
                    let fe : Int := if finalizedEnd > 0 then finalizedEnd else 0
                    let wFin : List Write :=
                      if finalizedEnd > 0 then [.finalizedUpdates 0 finalizedEnd] else []
                    let wHot : List Write :=
                      (((List.range info.newBlocks.length).filter
                          (fun i : Nat => fe ≤ (i : Int))).map
                        (fun i => [Write.insertHotBlock (info.newBlocks.getD i ⟨0, ""⟩),
                          Write.hotUpdates i])).flatten
                    wFin ++ wHot
                  else []
                let chain2 := chain.take rollbackPos.toNat ++ info.newBlocks
                match chain2.head? with
                | none => (w1 ++ w2, some "TypeError")
                | some c0 =>
                  let fhp : Int := info.finalizedHead.height - c0.height
                  if fhp < 0 ∨ (chain2.length : Int) ≤ fhp then
                    (w1 ++ w2, some "TypeError")
                  else
                    if (chain2.getD fhp.toNat ⟨0, ""⟩).hash = info.finalizedHead.hash then
                      (w1 ++ w2 ++ [.deleteHotBlocks info.finalizedHead.height,
                        .updateStatus info.finalizedHead], none)
                    else (w1 ++ w2, some "assertion failed")
            else ([], some raceMsg)
        else ([], some raceMsg)
      else ([], some "assertion failed")
    else ([], some continuityMsg)
  else ([], some "assertion failed: state invariants")

/-- The specification's notion of chain continuity: the new blocks' heights are
exactly `base.height + 1, base.height + 2, ...`. -/
def Contiguous (base : HashAndHeight) (blocks : List HashAndHeight) : Prop :=
  ∀ i : Nat, i < blocks.length → (blocks.getD i ⟨0, ""⟩).height = base.height + 1 + i

theorem assertChainContinuity_iff (base : HashAndHeight) (blocks : List HashAndHeight) :
    assertChainContinuity base blocks = true ↔ Contiguous base blocks := by
  induction blocks generalizing base with
  | nil => simp [assertChainContinuity, Contiguous]
  | cons b rest ih =>
    simp only [assertChainContinuity, Bool.and_eq_true, decide_eq_true_eq, ih]
    constructor
    · rintro ⟨h0, hrest⟩ i hi
      cases i with
      | zero => simpa using h0
      | succ j =>
        have hj : j < rest.length := by simpa using hi
        have := hrest j hj
        simp only [List.getD_cons_succ, this, h0]
        push_cast
        ring
    · intro h
      refine ⟨by simpa using h 0 (by simp), fun i hi => ?_⟩
      have h0 := h 0 (by simp)
      have hs := h (i + 1) (by simpa using hi)
      simp only [List.getD_cons_zero] at h0
      simp only [List.getD_cons_succ] at hs
      rw [hs, h0]
      push_cast
      ring

end TypeormDatabase

/-- C6 (confirmed): when the persisted state satisfies its invariants,
`transactHot2` with a `newBlocks` list that does not continue `baseHead` fails
on the chain-continuity assertion before emitting a single database write (the
transaction aborts with the persisted state untouched); and the continuity
check passes exactly when the heights form the contiguous sequence
`baseHead.height + 1, baseHead.height + 2, ...`. -/
theorem c6_theorem (st : TypeormDatabase.DatabaseState) (info : TypeormDatabase.HotTxInfo)
    (hwf : TypeormDatabase.stateInvariantsOk st = true) :
    (TypeormDatabase.assertChainContinuity info.baseHead info.newBlocks = false →
      TypeormDatabase.transactHot2 st info = ([], some TypeormDatabase.continuityMsg)) ∧
    (TypeormDatabase.Contiguous info.baseHead info.newBlocks ↔
      TypeormDatabase.assertChainContinuity info.baseHead info.newBlocks = true) := by
  constructor
  · intro hcont
    unfold TypeormDatabase.transactHot2
    rw [hwf, hcont]
    simp
  · exact (TypeormDatabase.assertChainContinuity_iff _ _).symm

/-- C6 witness: a well-formed persisted state at height 4 with base head at
height 4; the non-contiguous heights `[5, 7]` abort before any write, and the
contiguous heights `[5, 6]` pass the continuity check (extra `decide` fact). -/
theorem c6_witness :
    TypeormDatabase.stateInvariantsOk ⟨4, "0xg", 0, []⟩ = true ∧
    ((TypeormDatabase.assertChainContinuity ⟨4, "0xg"⟩ [⟨5, "a"⟩, ⟨7, "b"⟩] = false →
      TypeormDatabase.transactHot2 ⟨4, "0xg", 0, []⟩
          ⟨⟨4, "0xg"⟩, [⟨5, "a"⟩, ⟨7, "b"⟩], ⟨4, "0xg"⟩⟩ =
        ([], some TypeormDatabase.continuityMsg)) ∧
      (TypeormDatabase.Contiguous ⟨4, "0xg"⟩ [⟨5, "a"⟩, ⟨7, "b"⟩] ↔
        TypeormDatabase.assertChainContinuity ⟨4, "0xg"⟩ [⟨5, "a"⟩, ⟨7, "b"⟩] = true)) ∧
    TypeormDatabase.assertChainContinuity ⟨4, "0xg"⟩ [⟨5, "a"⟩, ⟨7, "b"⟩] = false ∧
    TypeormDatabase.assertChainContinuity ⟨4, "0xg"⟩ [⟨5, "a"⟩, ⟨6, "b"⟩] = true :=
  ⟨by decide,
    c6_theorem ⟨4, "0xg", 0, []⟩ ⟨⟨4, "0xg"⟩, [⟨5, "a"⟩, ⟨7, "b"⟩], ⟨4, "0xg"⟩⟩ (by decide),
    by decide, by decide⟩

theorem getO_setO_ne {α : Type} (m : OMap α) (k key : String) (v : α) (h : k ≠ key) :
    getO (setO m k v) key = getO m key := by
  induction m with
  | nil => simp [setO, getO, h]
  | cons p rest ih =>
    obtain ⟨k0, w⟩ := p
    by_cases hk : k0 = k
    · subst hk
      simp [setO, getO, h]
    · simp only [setO, if_neg hk]
      by_cases hkey : k0 = key <;> simp [getO, hkey, ih]

namespace DeferLoad

/-!
Model of the deferred batch loader: `splitIntoBatches` (`src/utils/misc.ts`)
and `StoreWithCache.load` (`src/store.ts`) for one entity type.  Entities carry
an id and one primitive column (so the column copy performed by the cache is
exact).  The database is an oracle from id to an optional row; one `find` call
per nonempty batch is counted.
-/

/-- An entity row with a primitive payload column. -/
structure Entity where
  id : String
  val : Nat
  deriving DecidableEq, Repr

/-- The generator loop of `splitIntoBatches`, with structural fuel: the source's
`while` loop consumes `maxBatchSize ≥ 1` elements per iteration, so `l.length`
steps always suffice; with `maxBatchSize = 0` and a nonempty list the source
would loop forever - that unreachable case is totalized by the fuel running
out. -/
def splitGo {α : Type} (maxBatchSize : Nat) : Nat → List α → List (List α)
  | fuel, l =>
    if l.length ≤ maxBatchSize then [l]
    else
      match fuel with
      | 0 => [l]
      | fuel + 1 => l.take maxBatchSize :: splitGo maxBatchSize fuel (l.drop maxBatchSize)

/-- `splitIntoBatches`: the whole list when it fits, otherwise chunks of
`maxBatchSize` with a final chunk of the remainder. -/
def splitIntoBatches {α : Type} (l : List α) (maxBatchSize : Nat) : List (List α) :=
  splitGo maxBatchSize l.length l

/-- Entry count of the batch list: `⌈length / maxBatchSize⌉`, except that an
empty list still yields the single empty batch. -/
theorem splitGo_length {α : Type} (K : Nat) (hK : 1 ≤ K) :
    ∀ (fuel : Nat) (l : List α), l.length ≤ fuel →
      (splitGo K fuel l).length = if l.length = 0 then 1 else (l.length + K - 1) / K := by
  intro fuel
  induction fuel with
  | zero =>
    intro l hl
    have h0 : l.length = 0 := Nat.le_zero.mp hl
    rw [splitGo, if_pos (by omega)]
    simp [h0]
  | succ f ih =>
    intro l hl
    rw [splitGo]
    by_cases hfit : l.length ≤ K
    · rw [if_pos hfit]
      by_cases h0 : l.length = 0
      · simp [h0]
      · have hdiv : (l.length + K - 1) / K = 1 :=
          Nat.div_eq_of_lt_le (by omega) (by omega)
        simp [h0, hdiv]
    · rw [if_neg hfit]
      have hlen : K < l.length := Nat.lt_of_not_le hfit
      have hdrop : (l.drop K).length ≤ f := by
        rw [List.length_drop]
        omega
      have ihd := ih (l.drop K) hdrop
      have hdlen : (l.drop K).length = l.length - K := List.length_drop ..
      have hne : ¬ (l.drop K).length = 0 := by omega
      rw [List.length_cons, ihd, if_neg hne, hdlen]
      have hstep : l.length - K + K - 1 = l.length - 1 := by omega
      rw [hstep]
      have h2 : l.length + K - 1 = (l.length - 1) + K := by omega
      rw [h2, Nat.add_div_right _ (by omega)]
      have h3 : ¬ l.length = 0 := by omega
      rw [if_neg h3]

/-- The batches cover the input list exactly. -/
theorem splitGo_flatten {α : Type} (K : Nat) :
    ∀ (fuel : Nat) (l : List α), (splitGo K fuel l).flatten = l := by
  intro fuel
  induction fuel with
  | zero =>
    intro l
    rw [splitGo]
    by_cases h : l.length ≤ K <;> simp [h]
  | succ f ih =>
    intro l
    rw [splitGo]
    by_cases h : l.length ≤ K
    · simp [h]
    · simp [h, List.flatten_cons, ih]

/-- Every batch of a nonempty list is nonempty (given a positive batch size). -/
theorem splitGo_ne_nil {α : Type} (K : Nat) (hK : 1 ≤ K) :
    ∀ (fuel : Nat) (l : List α), l ≠ [] → ∀ b ∈ splitGo K fuel l, b ≠ [] := by
  intro fuel
  induction fuel with
  | zero =>
    intro l hl b hb
    rw [splitGo] at hb
    by_cases h : l.length ≤ K <;> simp [h] at hb <;> simp [hb, hl]
  | succ f ih =>
    intro l hl b hb
    rw [splitGo] at hb
    by_cases h : l.length ≤ K
    · simp [h] at hb
      simp [hb, hl]
    · simp only [if_neg h, List.mem_cons] at hb
      rcases hb with hb | hb
      · subst hb
        have : K < l.length := Nat.lt_of_not_le h
        intro hcontra
        have h2 := congrArg List.length hcontra
        rw [List.length_take] at h2
        simp only [List.length_nil] at h2
        omega
      · refine ih (l.drop K) ?_ b hb
        intro hcontra
        have := congrArg List.length hcontra
        simp only [List.length_drop, List.length_nil] at this
        omega

/-- `CacheMap.ensure`: create an empty entry (value `null`) only when the id has
no entry yet. -/
def ensure (c : OMap (Option Entity)) (id : String) : OMap (Option Entity) :=
  match getO c id with
  | some _ => c
  | none => setO c id none

/-- `CacheMap.add` for a fetched row whose columns are all defined and
primitive: the entry is created when absent and its value becomes a column-wise
copy of the row, which for primitive columns is the row itself. -/
def add (c : OMap (Option Entity)) (e : Entity) : OMap (Option Entity) :=
  setO c e.id (some e)

/-- The batched `find` call issued by `load`: the rows of the batch present in
the database. -/
def find (db : String → Option Entity) (batch : List String) : List Entity :=
  batch.filterMap db

/-- One iteration of the batch loop of `StoreWithCache.load`: empty batches are
skipped (`if (batch.length == 0) continue`), otherwise one `find` is issued and
its rows are added to the cache. -/
def loadStep (db : String → Option Entity) (acc : OMap (Option Entity) × Nat)
    (batch : List String) : OMap (Option Entity) × Nat :=
  if batch = [] then acc
  else ((find db batch).foldl add acc.1, acc.2 + 1)

/-- `StoreWithCache.load` for one entity type: ensure a cache entry for every
deferred id, then fetch the ids in batches of `maxBatchSize` (the source
hard-codes 30000), counting the `find` calls. -/
def load (db : String → Option Entity) (ids : List String) (maxBatchSize : Nat)
    (c0 : OMap (Option Entity)) : OMap (Option Entity) × Nat :=
  (splitIntoBatches ids maxBatchSize).foldl (loadStep db) (ids.foldl ensure c0, 0)

theorem getO_foldl_ensure_of_some :
    ∀ (l : List String) (c : OMap (Option Entity)) (id : String) (v : Option Entity),
      getO c id = some v → getO (l.foldl ensure c) id = some v := by
  intro l
  induction l with
  | nil => intro c id v h; exact h
  | cons i rest ih =>
    intro c id v h
    refine ih (ensure c i) id v ?_
    unfold ensure
    cases hci : getO c i with
    | some w => exact h
    | none =>
      have hne : i ≠ id := by
        intro hEq
        rw [hEq, h] at hci
        cases hci
      rw [getO_setO_ne _ _ _ _ hne]
      exact h

theorem getO_foldl_ensure_mem :
    ∀ (l : List String) (c : OMap (Option Entity)) (id : String),
      id ∈ l → getO c id = none → getO (l.foldl ensure c) id = some none := by
  intro l
  induction l with
  | nil => intro c id h; cases h
  | cons i rest ih =>
    intro c id hmem hc
    by_cases hEq : i = id
    · subst hEq
      have : getO (ensure c i) i = some none := by
        unfold ensure
        rw [hc]
        exact getO_setO_self ..
      exact getO_foldl_ensure_of_some rest (ensure c i) i none this
    · have : getO (ensure c i) id = none := by
        unfold ensure
        cases hi : getO c i with
        | some w => exact hc
        | none => rw [getO_setO_ne _ _ _ _ hEq]; exact hc
      have hmem2 : id ∈ rest := by
        cases hmem with
        | head => exact absurd rfl hEq
        | tail _ h => exact h
      exact ih (ensure c i) id hmem2 this

theorem getO_foldl_add_of_ne :
    ∀ (es : List Entity) (c : OMap (Option Entity)) (id : String),
      (∀ e ∈ es, e.id ≠ id) → getO (es.foldl add c) id = getO c id := by
  intro es
  induction es with
  | nil => intro c id h; rfl
  | cons e rest ih =>
    intro c id h
    rw [List.foldl_cons, ih _ _ (fun e2 he2 => h e2 (List.mem_cons_of_mem _ he2))]
    exact getO_setO_ne _ _ _ _ (h e (List.mem_cons_self ..))

theorem getO_foldl_add_last (es1 es2 : List Entity) (e : Entity)
    (c : OMap (Option Entity)) (id : String) (heid : e.id = id)
    (h2 : ∀ e2 ∈ es2, e2.id ≠ id) :
    getO ((es1 ++ e :: es2).foldl add c) id = some (some e) := by
  rw [List.foldl_append, List.foldl_cons, getO_foldl_add_of_ne es2 _ _ h2]
  unfold add
  rw [heid]
  exact getO_setO_self ..

theorem getO_foldl_loadStep_of_ne (db : String → Option Entity) (id : String) :
    ∀ (bs : List (List String)) (acc : OMap (Option Entity) × Nat),
      (∀ b ∈ bs, ∀ e ∈ find db b, e.id ≠ id) →
      getO ((bs.foldl (loadStep db) acc)).1 id = getO acc.1 id := by
  intro bs
  induction bs with
  | nil => intro acc _; rfl
  | cons b rest ih =>
    intro acc hfind
    rw [List.foldl_cons]
    rw [ih _ (fun b2 h2 => hfind b2 (List.mem_cons_of_mem _ h2))]
    unfold loadStep
    by_cases hnil : b = []
    · rw [if_pos hnil]
    · rw [if_neg hnil]
      exact getO_foldl_add_of_ne _ _ _ (hfind b (List.mem_cons_self ..))

theorem foldl_loadStep_count (db : String → Option Entity) :
    ∀ (bs : List (List String)) (acc : OMap (Option Entity) × Nat),
      (∀ b ∈ bs, b ≠ []) →
      ((bs.foldl (loadStep db) acc)).2 = acc.2 + bs.length := by
  intro bs
  induction bs with
  | nil => intro acc _; rfl
  | cons b rest ih =>
    intro acc h
    rw [List.foldl_cons, ih _ (fun b2 h2 => h b2 (List.mem_cons_of_mem _ h2))]
    unfold loadStep
    rw [if_neg (h b (List.mem_cons_self ..))]
    simp only [List.length_cons]
    omega

end DeferLoad

/-- C7 (confirmed): loading `N ≥ 1` deferred ids of one entity type with batch
size limit `K ≥ 1` issues exactly `⌈N / K⌉ = (N + K - 1) / K` batched `find`
calls, and afterwards every deferred id has a cache entry: the database row for
ids that exist, the `null` entry installed by `ensure` for ids that do not. -/
theorem c7_theorem (db : String → Option DeferLoad.Entity) (ids : List String)
    (K : Nat) (c0 : OMap (Option DeferLoad.Entity))
    (hK : 1 ≤ K) (hne : ids ≠ []) (hnd : ids.Nodup)
    (hdb : ∀ id e, db id = some e → e.id = id)
    (hc0 : ∀ id ∈ ids, getO c0 id = none) :
    (DeferLoad.load db ids K c0).2 = (ids.length + K - 1) / K ∧
    ∀ id ∈ ids, getO (DeferLoad.load db ids K c0).1 id = some (db id) := by
  have hlen0 : ids.length ≠ 0 := fun h => hne (List.length_eq_zero.mp h)
  have hbsne : ∀ b ∈ DeferLoad.splitIntoBatches ids K, b ≠ [] :=
    DeferLoad.splitGo_ne_nil K hK ids.length ids hne
  have hflat : (DeferLoad.splitIntoBatches ids K).flatten = ids :=
    DeferLoad.splitGo_flatten K ids.length ids
  constructor
  · unfold DeferLoad.load
    rw [DeferLoad.foldl_loadStep_count db _ _ hbsne]
    unfold DeferLoad.splitIntoBatches
    rw [DeferLoad.splitGo_length K hK ids.length ids (le_refl _), if_neg hlen0]
    simp
  · intro id hid
    have hc1 : getO (ids.foldl DeferLoad.ensure c0) id = some none :=
      DeferLoad.getO_foldl_ensure_mem ids c0 id hid (hc0 id hid)
    unfold DeferLoad.load
    cases hdbid : db id with
    | none =>
      have hnohit : ∀ b ∈ DeferLoad.splitIntoBatches ids K,
          ∀ e ∈ DeferLoad.find db b, e.id ≠ id := by
        intro b hb e he hEq
        obtain ⟨j, hj, hje⟩ := List.mem_filterMap.mp he
        have : e.id = j := hdb j e hje
        rw [hEq] at this
        rw [← this] at hje
        rw [hdbid] at hje
        cases hje
      rw [DeferLoad.getO_foldl_loadStep_of_ne db id _ _ hnohit]
      exact hc1
    | some e =>
      have hmemflat : id ∈ (DeferLoad.splitIntoBatches ids K).flatten := by
        rw [hflat]; exact hid
      obtain ⟨b, hbmem, hidb⟩ := List.mem_flatten.mp hmemflat
      obtain ⟨B1, B2, hbs⟩ := List.append_of_mem hbmem
      have hndflat : (DeferLoad.splitIntoBatches ids K).flatten.Nodup := by
        rw [hflat]; exact hnd
      rw [hbs] at hndflat
      rw [List.flatten_append, List.flatten_cons] at hndflat
      have hnd1 := hndflat
      rw [List.nodup_append] at hnd1
      obtain ⟨hndB1, hndrest, hdisj1⟩ := hnd1
      rw [List.nodup_append] at hndrest
      obtain ⟨hndb, hndB2, hdisj2⟩ := hndrest
      have hidnB1 : id ∉ B1.flatten := fun hmem => hdisj1 hmem (List.mem_append_left _ hidb)
      have hidnB2 : id ∉ B2.flatten := fun hmem => hdisj2 hidb hmem
      rw [hbs, List.foldl_append, List.foldl_cons]
      have hB2 : ∀ b2 ∈ B2, ∀ e2 ∈ DeferLoad.find db b2, e2.id ≠ id := by
        intro b2 hb2 e2 he2 hEq
        obtain ⟨j, hj, hje⟩ := List.mem_filterMap.mp he2
        have hj2 : e2.id = j := hdb j e2 hje
        rw [hEq] at hj2
        exact hidnB2 (List.mem_flatten.mpr ⟨b2, hb2, hj2 ▸ hj⟩)
      rw [DeferLoad.getO_foldl_loadStep_of_ne db id B2 _ hB2]
      unfold DeferLoad.loadStep
      rw [if_neg (fun hb0 => by rw [hb0] at hidb; cases hidb)]
      obtain ⟨b1, b2, hbsplit⟩ := List.append_of_mem hidb
      have hndb2 : id ∉ b2 := by
        rw [hbsplit, List.nodup_append] at hndb
        exact (List.nodup_cons.mp hndb.2.1).1
      have hfindsplit : DeferLoad.find db b =
          DeferLoad.find db b1 ++ e :: DeferLoad.find db b2 := by
        unfold DeferLoad.find
        rw [hbsplit, List.filterMap_append]
        simp [List.filterMap_cons, hdbid]
      rw [hfindsplit]
      exact DeferLoad.getO_foldl_add_last _ _ _ _ _ (hdb id e hdbid) (by
        intro e2 he2 hEq
        obtain ⟨j, hj, hje⟩ := List.mem_filterMap.mp he2
        have hj2 : e2.id = j := hdb j e2 hje
        rw [hEq] at hj2
        exact hndb2 (hj2 ▸ hj))

/-- C7 witness: three ids with batch limit 2 issue `⌈3/2⌉ = 2` fetch calls and
leave every id cached; concrete instance of `c7_theorem`. -/
theorem c7_witness :
    1 ≤ 2 ∧ (["a", "b", "c"] : List String) ≠ [] ∧ (["a", "b", "c"] : List String).Nodup ∧
    ((DeferLoad.load (fun s => some ⟨s, 0⟩) ["a", "b", "c"] 2 []).2 = (3 + 2 - 1) / 2 ∧
      ∀ id ∈ (["a", "b", "c"] : List String),
        getO (DeferLoad.load (fun s => some ⟨s, 0⟩) ["a", "b", "c"] 2 []).1 id =
          some (some ⟨id, 0⟩)) := by
  refine ⟨by decide, by decide, by decide, ?_⟩
  have h := c7_theorem (fun s => some ⟨s, 0⟩) ["a", "b", "c"] 2 []
    (by decide) (by decide) (by decide)
    (fun id e hEq => by injection hEq with h2; rw [← h2])
    (fun id _ => rfl)
  exact ⟨h.1, fun id hid => h.2 id hid⟩

namespace StoreCache

/-!
Model of `StoreWithCache.remove` / `getCached` / `get` (`src/store.ts`) over the
`CacheMap` of `src/cacheMap.ts` for one entity type, reusing the `DeferLoad`
entities and cache representation (`getO c id = none`: no entry;
`= some none`: entry whose `value` is `null`; `= some (some e)`: cached row).
-/

/-- `CacheMap.delete` (both `src/cacheMap.ts` and the current
`src/utils/cacheMap.ts` agree): the entry is replaced by a fresh
`CachedEntity`, i.e. a tombstone whose `value` is `null` - the entry is NOT
removed. -/
def cacheDelete (c : OMap (Option DeferLoad.Entity)) (id : String) :
    OMap (Option DeferLoad.Entity) :=
  setO c id none

/-- `UpdateMap.remove` of the iteration paired with this store: every previous
state (including none) becomes `Remove`. -/
def updateMapRemove (m : OMap UpdateType) (id : String) : OMap UpdateType :=
  setO m id .Remove

/-- Store state for one entity type: cache, pending updates, deferred ids. -/
structure Store where
  cache : OMap (Option DeferLoad.Entity)
  updates : OMap UpdateType
  defer : List String
  deriving DecidableEq, Repr

/-- `StoreWithCache.remove(entityClass, ids)`: mark every id removed and install
a cache tombstone for it. -/
def remove (st : Store) (ids : List String) : Store :=
  ids.foldl
    (fun st i =>
      { st with
        updates := updateMapRemove st.updates i
        cache := cacheDelete st.cache i })
    st

/-- `StoreWithCache.get`: first `load()` (drains the defer queue),
then `getCached`; a cached `null` value answers `undefined` from memory, a
cached row is returned from memory, and only an absent entry falls through to
`findOne` - a database query, counted together with the `find` calls of
`load`. -/
def get (st : Store) (db : String → Option DeferLoad.Entity) (id : String) :
    Option DeferLoad.Entity × Nat :=
  let loaded := DeferLoad.load db st.defer 30000 st.cache
  match getO loaded.1 id with
  | some none => (none, loaded.2)
  | some (some e) => (some e, loaded.2)
  | none => (db id, loaded.2 + 1)

end StoreCache

/-- C10 (confirmed): deleting an id through the store installs a tombstone
entry whose value is `null` (it never merely removes the cache entry), and a
subsequent `get` of that id - with no deferred loads pending - is answered from
the cache as missing (`undefined`) with zero database queries. -/
theorem c10_theorem (st : StoreCache.Store) (db : String → Option DeferLoad.Entity)
    (id : String) (hdefer : st.defer = []) :
    getO (StoreCache.remove st [id]).cache id = some none ∧
    StoreCache.get (StoreCache.remove st [id]) db id = (none, 0) := by
  have hcache : getO (StoreCache.remove st [id]).cache id = some none := by
    unfold StoreCache.remove StoreCache.cacheDelete
    simp only [List.foldl_cons, List.foldl_nil]
    exact getO_setO_self ..
  refine ⟨hcache, ?_⟩
  have hdefer2 : (StoreCache.remove st [id]).defer = st.defer := by
    unfold StoreCache.remove
    simp
  unfold StoreCache.get
  rw [hdefer2, hdefer]
  have hload : DeferLoad.load db [] 30000 (StoreCache.remove st [id]).cache =
      ((StoreCache.remove st [id]).cache, 0) := by
    unfold DeferLoad.load DeferLoad.splitIntoBatches
    rw [DeferLoad.splitGo.eq_def]
    simp [DeferLoad.loadStep]
  rw [hload]
  simp only [hcache]

/-- C10 witness: concrete instance of `c10_theorem`. -/
theorem c10_witness :
    (StoreCache.Store.mk [("d", some ⟨"d", 7⟩)] [] []).defer = [] ∧
    (getO (StoreCache.remove ⟨[("d", some ⟨"d", 7⟩)], [], []⟩ ["d"]).cache "d" =
        some none ∧
      StoreCache.get (StoreCache.remove ⟨[("d", some ⟨"d", 7⟩)], [], []⟩ ["d"])
          (fun s => if s = "d" then some ⟨"d", 7⟩ else none) "d" = (none, 0)) :=
  ⟨rfl, c10_theorem ⟨[("d", some ⟨"d", 7⟩)], [], []⟩
    (fun s => if s = "d" then some ⟨"d", 7⟩ else none) "d" rfl⟩

namespace CacheMapV2

/-!
Model of the column-copy machinery of `src/cacheMap.ts` (`cacheColumns`) and of
the `copy` helper of `src/utils.ts` it uses.  JS column values are modelled by
`Value`; `undef` is JavaScript `undefined`, `vmap`/`vset` are `Map`/`Set`
contents as entry/element lists, `bytes` is a `Buffer`, and `obj` is a plain
object's own enumerable fields.
-/

/-- A JavaScript column value. -/
inductive Value where
  | vnull
  | undef
  | num (n : Int)
  | str (s : String)
  | boolean (b : Bool)
  | date (ms : Int)
  | arr (items : List Value)
  | vmap (entries : List (Value × Value))
  | vset (items : List Value)
  | bytes (data : List Nat)
  | obj (fields : List (String × Value))

/-- `copyArray` of `src/utils.ts`: the loop body reads `clone[i]` - a slot of the
freshly allocated `new Array(arr.length)`, which is `undefined` - instead of
`arr[i]`, and `copy(undefined)` returns `undefined` (the `typeof obj !== 'object'`
branch), so every element of the copy is `undefined`. -/
def copyArray (arr : List Value) : List Value :=
  arr.map fun _ => Value.undef

mutual

/-- `copy` of `src/utils.ts`: primitives, `null` and `undefined` are returned as
is; `Date` and `Buffer` are rebuilt; arrays go through the broken `copyArray`;
`new Map(copyArray(entries))` receives `undefined` where entries are expected
and throws a `TypeError` for any nonempty map; `new Set(copyArray(items))`
collapses any nonempty set to the singleton `{undefined}`; plain objects are
copied field by field (this branch reads `obj[k]`, so it is correct). -/
def copy : Value → Except String Value
  | .vnull => .ok .vnull
  | .undef => .ok .undef
  | .num n => .ok (.num n)
  | .str s => .ok (.str s)
  | .boolean b => .ok (.boolean b)
  | .date ms => .ok (.date ms)
  | .arr items => .ok (.arr (copyArray items))
  | .vmap [] => .ok (.vmap [])
  | .vmap (_ :: _) => .error "TypeError: iterator value undefined is not an entry object"
  | .vset [] => .ok (.vset [])
  | .vset (_ :: _) => .ok (.vset [Value.undef])
  | .bytes data => .ok (.bytes data)
  | .obj fields =>
    match copyFields fields with
    | .ok copied => .ok (.obj copied)
    | .error msg => .error msg

/-- The `for (var k in obj) clone[k] = copy(obj[k])` loop of `copy`. -/
def copyFields : List (String × Value) → Except String (List (String × Value))
  | [] => .ok []
  | (k, v) :: rest =>
    match copy v with
    | .error msg => .error msg
    | .ok v2 =>
      match copyFields rest with
      | .error msg => .error msg
      | .ok rest2 => .ok ((k, v2) :: rest2)

end

/-- `cacheColumns` of `src/cacheMap.ts`: for every non-virtual column whose
source value is defined, store `copy(value)` on the cached entity (a thrown
`TypeError` from `copy` propagates). -/
def cacheColumns (columns : List String) (source : OMap Value)
    (cached : OMap Value) : Except String (OMap Value) :=
  match columns with
  | [] => .ok cached
  | col :: rest =>
    match getO source col with
    | none => cacheColumns rest source cached
    | some v =>
      match copy v with
      | .error msg => .error msg
      | .ok v2 => cacheColumns rest source (setO cached col v2)

end CacheMapV2

/-- C9 (code bug): the cached copy of an array column is NOT structurally equal
to the source - `copyArray` copies the uninitialized clone slots, so
`cacheColumns` stores `[undefined, undefined, undefined]` for the column value
`[1, 2, 3]`; nonempty `Map` values make `copy` throw a `TypeError` and nonempty
`Set` values collapse to `{undefined}`, while `Date` and plain-object values are
copied correctly (showing the deep-copy intent of the surrounding code). -/
theorem c9_theorem :
    CacheMapV2.copy (.arr [.num 1, .num 2, .num 3]) =
      .ok (.arr [.undef, .undef, .undef]) ∧
    (CacheMapV2.Value.arr [.undef, .undef, .undef] ≠ .arr [.num 1, .num 2, .num 3]) ∧
    CacheMapV2.cacheColumns ["tags"]
        [("tags", .arr [.num 1, .num 2, .num 3])] [] =
      .ok [("tags", CacheMapV2.Value.arr [.undef, .undef, .undef])] ∧
    CacheMapV2.copy (.vmap [(.num 1, .num 2)]) =
      .error "TypeError: iterator value undefined is not an entry object" ∧
    CacheMapV2.copy (.vset [.num 1, .num 2]) = .ok (.vset [.undef]) ∧
    CacheMapV2.copy (.date 123) = .ok (.date 123) ∧
    CacheMapV2.copy (.obj [("a", .num 1), ("b", .str "s")]) =
      .ok (.obj [("a", .num 1), ("b", .str "s")]) := by
  refine ⟨?_, ?_, ?_, ?_, ?_, ?_, ?_⟩ <;>
    simp [CacheMapV2.copy, CacheMapV2.copyFields, CacheMapV2.copyArray,
      CacheMapV2.cacheColumns, getO, setO]

/-- Lookup in a map keyed by `(metadata name, entity id)` pairs. -/
def getP {α : Type} : List ((String × String) × α) → String × String → Option α
  | [], _ => none
  | (k, v) :: rest, key => if k = key then some v else getP rest key

/-- Insertion-ordered update of a pair-keyed map. -/
def setP {α : Type} : List ((String × String) × α) → String × String → α →
    List ((String × String) × α)
  | [], key, v => [(key, v)]
  | (k, w) :: rest, key, v =>
    if k = key then (key, v) :: rest else (k, w) :: setP rest key v

theorem getP_setP_self {α : Type} (m : List ((String × String) × α))
    (key : String × String) (v : α) : getP (setP m key v) key = some v := by
  induction m with
  | nil => simp [setP, getP]
  | cons p rest ih =>
    obtain ⟨k, w⟩ := p
    by_cases h : k = key <;> simp [setP, getP, h, ih]

theorem getP_setP_ne {α : Type} (m : List ((String × String) × α))
    (k key : String × String) (v : α) (h : k ≠ key) :
    getP (setP m k v) key = getP m key := by
  induction m with
  | nil => simp [setP, getP, h]
  | cons p rest ih =>
    obtain ⟨k0, w⟩ := p
    by_cases hk : k0 = k
    · subst hk
      simp [setP, getP, h]
    · simp only [setP, if_neg hk]
      by_cases hkey : k0 = key <;> simp [getP, hkey, ih]

namespace CacheMapV2

/-!
Model of `CacheMap.add` / `cacheEntity` / `cacheRelatedEntities`
(`src/cacheMap.ts`).  Entities are nested values: `Ent` carries the entity's
type name, id, column values and relation values (`RelV`); a relation value is
`null`, a single related entity, or an array of them, and an absent key is JS
`undefined`.  The cache maps `(metadata name, id)` pairs to `CachedEntity`
values (`Option Ent`; `none` is a `value: null` entry).  Relation masks
(`FindOptionsRelations`) map property names to `true` (`MaskV.shallow`) or a
nested mask (`MaskV.deep`).

The recursion over masked relations is driven by fuel; the callers below only
use the empty mask, for which any positive fuel is exact.  The source mutates
the cached entry object in place while its relations are processed; the model
threads the cache functionally and writes the merged value back at the end,
which agrees with the source whenever the masked recursion does not revisit the
entry being merged.
-/

mutual

/-- A relation mask (`FindOptionsRelations`): a list of requested relation
property names, each mapped to `true` or a nested mask. -/
inductive Mask where
  | nil
  | cons (name : String) (v : MaskV) (rest : Mask)

/-- A relation-mask value: `true` or a nested mask. -/
inductive MaskV where
  | shallow
  | deep (m : Mask)

end

/-- Mask lookup by relation property name. -/
def maskLookup : Mask → String → Option MaskV
  | .nil, _ => none
  | .cons name v rest, key => if name = key then some v else maskLookup rest key

/-- `typeof invMask === 'boolean' ? {} : invMask`. -/
def subMask : MaskV → Mask
  | .shallow => .nil
  | .deep m => m

mutual

/-- Nesting depth of a mask (an upper bound for the recursion of
`cacheEntity`). -/
def maskDepth : Mask → Nat
  | .nil => 0
  | .cons _ v rest => max (mvDepth v) (maskDepth rest)

/-- Nesting depth of a mask value. -/
def mvDepth : MaskV → Nat
  | .shallow => 1
  | .deep m => 1 + maskDepth m

end

mutual

/-- An entity object: type name, id, columns, relation values. -/
inductive Ent where
  | mk (typeName : String) (id : String) (cols : List (String × Value))
      (rels : List (String × RelV))

/-- The value of one relation property on an entity object. -/
inductive RelV where
  | rnull
  | one (e : Ent)
  | many (es : List Ent)

end

/-- Type name of an entity object. -/
def Ent.typeName : Ent → String
  | .mk t _ _ _ => t

/-- Id of an entity object. -/
def Ent.id : Ent → String
  | .mk _ i _ _ => i

/-- Column values of an entity object. -/
def Ent.cols : Ent → List (String × Value)
  | .mk _ _ c _ => c

/-- Relation values of an entity object. -/
def Ent.rels : Ent → List (String × RelV)
  | .mk _ _ _ r => r

/-- Set a relation value on a cached entity object. -/
def setRel (e : Ent) (name : String) (v : RelV) : Ent :=
  .mk e.typeName e.id e.cols (setO e.rels name v)

/-- Relation descriptor: property name, name of the inverse entity metadata,
and the flags inspected by `cacheRelatedEntities`. -/
structure RelMeta where
  propertyName : String
  inverseName : String
  isOwning : Bool
  isOneToMany : Bool
  isManyToMany : Bool
  deriving DecidableEq, Repr

/-- Entity metadata: name, non-virtual columns, relations. -/
structure Meta where
  name : String
  nonVirtualColumns : List String
  relations : List RelMeta
  deriving DecidableEq, Repr

/-- The cache: `(metadata name, id) → CachedEntity` (inner `none` = entry whose
`value` is `null`). -/
abbrev Cache : Type := List ((String × String) × Option Ent)

/-- The owning-relation block of `cacheRelatedEntities`: a `null` relation value
is stored as `null`; an entity value requires the target id to have a cache
entry, else `throw new Error('Missing entity ...')`; the stored value is the
target entry's `value` (possibly `null`).  An array value in an owning position
would make the source look up `undefined`. -/
def cacheOwning (c : Cache) (rel : RelMeta) (rv : RelV) (cached : Ent) :
    Except String Ent :=
  if rel.isOwning then
    match rv with
    | .rnull => .ok (setRel cached rel.propertyName .rnull)
    | .one e2 =>
      match getP c (rel.inverseName, e2.id) with
      | none => .error ("Missing entity " ++ rel.inverseName ++ " with id " ++ e2.id)
      | some entry =>
        .ok (setRel cached rel.propertyName
          (match entry with
            | some v => RelV.one v
            | none => RelV.rnull))
    | .many _ => .error ("Missing entity " ++ rel.inverseName ++ " with id undefined")
  else .ok cached

/-- The cached value to merge into: the existing entry value when present and
non-null, else the blank object created by `em.create` (whose id the column
merge fills in; the model keeps the id field in sync directly). -/
def baseOf (c : Cache) (key : String × String) (e : Ent) : Ent :=
  match getP c key with
  | some (some old) => old
  | _ => Ent.mk e.typeName e.id [] []

/-- A cached value with its column set replaced by the merge result. -/
def withCols (b : Ent) (cols2 : List (String × Value)) : Ent :=
  .mk b.typeName b.id cols2 b.rels

mutual

/-- `cacheEntity`: fetch or create the cache entry and its value, merge the
columns (`cacheColumns`) and process the relations (`cacheRelatedEntities`). -/
def cacheEntity (env : String → Meta) : Nat → Cache → Ent → Mask → Except String Cache
  | 0, _, _, _ => .error "out of fuel"
  | fuel + 1, c, e, mask =>
    match cacheColumns (env e.typeName).nonVirtualColumns e.cols
        (baseOf c ((env e.typeName).name, e.id) e).cols with
    | .error msg => .error msg
    | .ok cols2 =>
      match cacheRels env fuel e mask (env e.typeName).relations
          (setP c ((env e.typeName).name, e.id)
            (some (withCols (baseOf c ((env e.typeName).name, e.id) e) cols2)))
          (withCols (baseOf c ((env e.typeName).name, e.id) e) cols2) with
      | .error msg => .error msg
      | .ok (c2, val2) => .ok (setP c2 ((env e.typeName).name, e.id) (some val2))

/-- The relation loop of `cacheRelatedEntities`: an `undefined` relation value
is skipped; a masked relation first caches the related entities recursively
(for a to-many relation a non-array value skips the whole relation); then the
owning block runs. -/
def cacheRels (env : String → Meta) (fuel : Nat) (e : Ent) (mask : Mask) :
    List RelMeta → Cache → Ent → Except String (Cache × Ent)
  | [], c, cached => .ok (c, cached)
  | rel :: rest, c, cached =>
    match getO e.rels rel.propertyName with
    | none => cacheRels env fuel e mask rest c cached
    | some rv =>
      match maskLookup mask rel.propertyName with
      | some mv =>
        if rel.isOneToMany || rel.isManyToMany then
          match rv with
          | .many es =>
            match cacheMany env fuel (subMask mv) es c with
            | .error msg => .error msg
            | .ok c2 =>
              match cacheOwning c2 rel rv cached with
              | .error msg => .error msg
              | .ok cached2 => cacheRels env fuel e mask rest c2 cached2
          | _ => cacheRels env fuel e mask rest c cached
        else
          match rv with
          | .one e2 =>
            match cacheEntity env fuel c e2 (subMask mv) with
            | .error msg => .error msg
            | .ok c2 =>
              match cacheOwning c2 rel rv cached with
              | .error msg => .error msg
              | .ok cached2 => cacheRels env fuel e mask rest c2 cached2
          | _ =>
            match cacheOwning c rel rv cached with
            | .error msg => .error msg
            | .ok cached2 => cacheRels env fuel e mask rest c cached2
      | none =>
        match cacheOwning c rel rv cached with
        | .error msg => .error msg
        | .ok cached2 => cacheRels env fuel e mask rest c cached2

/-- The `for (const entity of invEntity) this.cacheEntity(entity, ...)` loop. -/
def cacheMany (env : String → Meta) (fuel : Nat) (sub : Mask) :
    List Ent → Cache → Except String Cache
  | [], c => .ok c
  | e2 :: rest, c =>
    match cacheEntity env fuel c e2 sub with
    | .error msg => .error msg
    | .ok c2 => cacheMany env fuel sub rest c2

end

/-- `CacheMap.add` for a single entity: `cacheEntity` with fuel exceeding the
mask depth (for the empty mask used by `add(e)` any positive fuel is exact). -/
def add (env : String → Meta) (c : Cache) (e : Ent) (mask : Mask) :
    Except String Cache :=
  cacheEntity env (maskDepth mask + 1) c e mask

end CacheMapV2

theorem cacheRels_error (env : String → CacheMapV2.Meta) (fuel : Nat)
    (e : CacheMapV2.Ent) (rel : CacheMapV2.RelMeta) (v : CacheMapV2.Ent)
    (hown : rel.isOwning = true)
    (hval : getO e.rels rel.propertyName = some (CacheMapV2.RelV.one v)) :
    ∀ (rels : List CacheMapV2.RelMeta) (c : CacheMapV2.Cache) (cached : CacheMapV2.Ent),
      rel ∈ rels → getP c (rel.inverseName, v.id) = none →
      ∃ msg, CacheMapV2.cacheRels env fuel e .nil rels c cached = .error msg := by
  intro rels
  induction rels with
  | nil => intro c cached hmem; cases hmem
  | cons r0 rest ih =>
    intro c cached hmem hmiss
    rw [CacheMapV2.cacheRels]
    rcases List.mem_cons.mp hmem with hEq | htail
    · subst hEq
      rw [hval]
      simp only [CacheMapV2.maskLookup]
      unfold CacheMapV2.cacheOwning
      rw [hown]
      simp only [if_pos rfl, hmiss]
      exact ⟨_, rfl⟩
    · cases hv0 : getO e.rels r0.propertyName with
      | none => exact ih c cached htail hmiss
      | some rv =>
        simp only [CacheMapV2.maskLookup]
        cases hco : CacheMapV2.cacheOwning c r0 rv cached with
        | error msg => exact ⟨msg, rfl⟩
        | ok cached2 => exact ih c cached2 htail hmiss

/-- C8 (amended): in the `CacheMap` of `src/cacheMap.ts`, `add(e)` (no relation
mask) on an entity carrying an owning relation whose value references an
identity with no cache entry (other than the entry being merged for `e` itself)
fails with a `Missing entity ...` error; the current `src/utils/cacheMap.ts`
cache instead stores an identity-only stub without any check (see the
counterexample). -/
theorem c8_theorem (env : String → CacheMapV2.Meta) (c : CacheMapV2.Cache)
    (e : CacheMapV2.Ent) (rel : CacheMapV2.RelMeta) (v : CacheMapV2.Ent)
    (hrel : rel ∈ (env e.typeName).relations)
    (hown : rel.isOwning = true)
    (hval : getO e.rels rel.propertyName = some (CacheMapV2.RelV.one v))
    (hnotself : (rel.inverseName, v.id) ≠ ((env e.typeName).name, e.id))
    (hmiss : getP c (rel.inverseName, v.id) = none) :
    ∃ msg, CacheMapV2.add env c e .nil = .error msg := by
  unfold CacheMapV2.add
  have hfuel : CacheMapV2.maskDepth .nil + 1 = 0 + 1 := by rw [CacheMapV2.maskDepth]
  rw [hfuel, CacheMapV2.cacheEntity]
  cases hcols : CacheMapV2.cacheColumns (env e.typeName).nonVirtualColumns e.cols
      (CacheMapV2.baseOf c ((env e.typeName).name, e.id) e).cols with
  | error msg => exact ⟨msg, rfl⟩
  | ok cols2 =>
    have hmiss1 : getP (setP c ((env e.typeName).name, e.id)
        (some (CacheMapV2.withCols
          (CacheMapV2.baseOf c ((env e.typeName).name, e.id) e) cols2)))
        (rel.inverseName, v.id) = none := by
      rw [getP_setP_ne _ _ _ _ (Ne.symm hnotself)]
      exact hmiss
    obtain ⟨msg, hmsg⟩ := cacheRels_error env 0 e rel v hown hval
      (env e.typeName).relations
      (setP c ((env e.typeName).name, e.id)
        (some (CacheMapV2.withCols
          (CacheMapV2.baseOf c ((env e.typeName).name, e.id) e) cols2)))
      (CacheMapV2.withCols (CacheMapV2.baseOf c ((env e.typeName).name, e.id) e) cols2)
      hrel hmiss1
    refine ⟨msg, ?_⟩
    simp only [hmsg]

/-- C8 witness: concrete instance of `c8_theorem` - caching a `Post` whose
owning `author` relation references the uncached `User u1` fails. -/
theorem c8_witness :
    CacheMapV2.RelMeta.mk "author" "User" true false false ∈
      (CacheMapV2.Meta.mk "Post" []
        [CacheMapV2.RelMeta.mk "author" "User" true false false]).relations ∧
    (CacheMapV2.RelMeta.mk "author" "User" true false false).isOwning = true ∧
    getO (CacheMapV2.Ent.mk "Post" "p1" []
        [("author", CacheMapV2.RelV.one (CacheMapV2.Ent.mk "User" "u1" [] []))]).rels
      "author" = some (CacheMapV2.RelV.one (CacheMapV2.Ent.mk "User" "u1" [] [])) ∧
    (∃ msg,
      CacheMapV2.add
        (fun t => if t = "Post"
          then CacheMapV2.Meta.mk "Post" []
            [CacheMapV2.RelMeta.mk "author" "User" true false false]
          else CacheMapV2.Meta.mk "User" [] [])
        []
        (CacheMapV2.Ent.mk "Post" "p1" []
          [("author", CacheMapV2.RelV.one (CacheMapV2.Ent.mk "User" "u1" [] []))])
        .nil = .error msg) :=
  ⟨by decide, rfl, rfl,
    c8_theorem
      (fun t => if t = "Post"
        then CacheMapV2.Meta.mk "Post" []
          [CacheMapV2.RelMeta.mk "author" "User" true false false]
        else CacheMapV2.Meta.mk "User" [] [])
      []
      (CacheMapV2.Ent.mk "Post" "p1" []
        [("author", CacheMapV2.RelV.one (CacheMapV2.Ent.mk "User" "u1" [] []))])
      (CacheMapV2.RelMeta.mk "author" "User" true false false)
      (CacheMapV2.Ent.mk "User" "u1" [] [])
      (by decide) rfl rfl (by decide) rfl⟩

namespace CacheMapN

/-!
Model of the current `CacheMap.add` (`src/utils/cacheMap.ts`).  Cached values
hold deep-cloned columns (the external `fast-copy` clone is a correct deep copy,
which over immutable model values is the identity) and identity-only relation
stubs.  A relation value is `Option (Option String)` through lookup: no key =
`undefined`, `some none` = `null`, `some (some id)` = an entity stub with that
id.  There is no missing-entity check anywhere in this implementation. -/

/-- A cached or incoming entity record: id, column values, owning-relation
stubs. -/
structure Ent where
  id : String
  cols : OMap CacheMapV2.Value
  rels : OMap (Option String)

/-- The cache of the current implementation. -/
abbrev Cache : Type := List ((String × String) × Option Ent)

/-- The external `fast-copy` clone: a correct deep copy, the identity on
immutable model values. -/
def cloneFast (v : CacheMapV2.Value) : CacheMapV2.Value := v

/-- JavaScript `===` on column values: structural on primitives, reference
identity on objects - two values read from different objects are never the same
reference, so object values compare unequal. -/
def jsStrictEq : CacheMapV2.Value → CacheMapV2.Value → Bool
  | .num a, .num b => a == b
  | .str a, .str b => a == b
  | .boolean a, .boolean b => a == b
  | .vnull, .vnull => true
  | .undef, .undef => true
  | _, _ => false

/-- The column-merge loop of `add`: skip when the cached value is already
defined (unless `override`), skip `undefined` source values (unless `nullify`),
skip identical defined values, else store `clone(value ?? null)`. -/
def colsLoop (override nullify : Bool) (e : Ent) :
    List String → OMap CacheMapV2.Value → OMap CacheMapV2.Value
  | [], cached => cached
  | col :: rest, cached =>
    if !override && (getO cached col).isSome then colsLoop override nullify e rest cached
    else if !nullify && (getO e.cols col).isNone then colsLoop override nullify e rest cached
    else
      match getO e.cols col with
      | some ov =>
        match getO cached col with
        | some cv =>
          if jsStrictEq ov cv then colsLoop override nullify e rest cached
          else colsLoop override nullify e rest (setO cached col (cloneFast ov))
        | none => colsLoop override nullify e rest (setO cached col (cloneFast ov))
      | none => colsLoop override nullify e rest (setO cached col (cloneFast .vnull))

/-- `inverseEntity?.id`. -/
def relIdOf : Option (Option String) → Option String
  | some (some i) => some i
  | _ => none

/-- The relation-merge loop of `add`: only owning relations; skip when the
cached stub is already defined (unless `override`), skip `undefined` source
values (unless `nullify`), skip when source and cached stub have the same id
and the source is non-null; else store `null` or a fresh identity-only stub -
with no existence check against the cache. -/
def relsLoop (override nullify : Bool) (e : Ent) :
    List CacheMapV2.RelMeta → OMap (Option String) → OMap (Option String)
  | [], cached => cached
  | rel :: rest, cached =>
    if !rel.isOwning then relsLoop override nullify e rest cached
    else
      if !override && (getO cached rel.propertyName).isSome then
        relsLoop override nullify e rest cached
      else if !nullify && (getO e.rels rel.propertyName).isNone then
        relsLoop override nullify e rest cached
      else if (relIdOf (getO e.rels rel.propertyName) ==
            relIdOf (getO cached rel.propertyName)) &&
          (match getO e.rels rel.propertyName with
            | some (some _) => true
            | _ => false) then
        relsLoop override nullify e rest cached
      else
        relsLoop override nullify e rest
          (setO cached rel.propertyName
            (match getO e.rels rel.propertyName with
              | some (some i) => some i
              | _ => none))

/-- The current `CacheMap.add`: fetch or create the entry (a fresh value gets
the entity's id), then merge columns and owning-relation stubs. -/
def add (meta : CacheMapV2.Meta) (c : Cache) (e : Ent) (override nullify : Bool) :
    Cache :=
  let base : Ent :=
    match getP c (meta.name, e.id) with
    | some (some old) => old
    | _ => ⟨e.id, [], []⟩
  setP c (meta.name, e.id)
    (some ⟨base.id,
      colsLoop override nullify e meta.nonVirtualColumns base.cols,
      relsLoop override nullify e meta.relations base.rels⟩)

end CacheMapN

/-- C8 counterexample: the current `CacheMap.add` (`src/utils/cacheMap.ts`),
given an entity whose owning `author` relation references the id `u1` with no
cache entry, does not fail - it is a total function that stores an
identity-only `u1` stub on the cached value, refuting the claim that such an
`add` fails with a missing-relation error. -/
theorem c8_counterexample :
    CacheMapN.add ⟨"Post", [], [⟨"author", "User", true, false, false⟩]⟩ []
        ⟨"p1", [], [("author", some "u1")]⟩ false false =
      [(("Post", "p1"), some ⟨"p1", [], [("author", some "u1")]⟩)] ∧
    CacheMapN.relIdOf (getO ([("author", some "u1")] : OMap (Option String)) "author") =
      some "u1" := by
  exact ⟨rfl, rfl⟩

namespace CommitOrder

/-!
Model of `getMetadatasInCommitOrder` (`src/utils/commitOrder.ts`).  Entity
types are `Fin n`; a relation edge carries its target, whether it holds a
foreign key (`edge.foreignKeys.length > 0`) and its nullability.  The DFS state
is the `nodeState` record (graded `Unvisited` by default, as the source's
`undefined` is) plus the accumulating `commitOrder` array.  The three
recursions of the source - `visit`, its edge loop, and the forced-finish loop
of the cycle-breaking branch - are one function `run` over a `Call` type; it
terminates because every nested call either strictly shrinks the number of
unvisited nodes or recurses into a smaller loop, which the returned
subtype bound `unvisitedCount r ≤ unvisitedCount st` makes checkable.
-/

/-- `NodeState` of `src/utils/commitOrder.ts`. -/
inductive NodeState where
  | Unvisited
  | Visiting
  | Visited
  deriving DecidableEq, Repr

/-- One relation edge of an entity type. -/
structure Rel (n : Nat) where
  target : Fin n
  hasForeignKey : Bool
  isNullable : Bool
  deriving DecidableEq, Repr

/-- The entity metadatas: each node's relation list. -/
structure Schema (n : Nat) where
  rels : Fin n → List (Rel n)

/-- `getWeight`: 0 for a nullable edge, 1 otherwise. -/
def getWeight {n : Nat} (e : Rel n) : Nat := if e.isNullable then 0 else 1

/-- DFS state: node colors plus the commit order built so far. -/
structure St (n : Nat) where
  color : Fin n → NodeState
  order : List (Fin n)

/-- `nodeState[node.name] = c`. -/
def setColor {n : Nat} (st : St n) (i : Fin n) (c : NodeState) : St n :=
  { st with color := fun j => if j = i then c else st.color j }

/-- `commitOrder.push(node)`. -/
def push {n : Nat} (st : St n) (i : Fin n) : St n :=
  { st with order := st.order ++ [i] }

/-- Number of unvisited nodes, the primary termination measure. -/
def unvisitedCount {n : Nat} (st : St n) : Nat :=
  (Finset.univ.filter (fun i => st.color i = NodeState.Unvisited)).card

theorem unvisitedCount_setColor_le {n : Nat} (st : St n) (i : Fin n)
    (c : NodeState) (hc : c ≠ .Unvisited) :
    unvisitedCount (setColor st i c) ≤ unvisitedCount st := by
  refine Finset.card_le_card ?_
  intro j hj
  simp only [unvisitedCount, setColor, Finset.mem_filter, Finset.mem_univ, true_and] at hj ⊢
  by_cases hji : j = i
  · rw [if_pos hji] at hj
    exact absurd hj hc
  · rwa [if_neg hji] at hj

theorem unvisitedCount_setColor_lt {n : Nat} (st : St n) (i : Fin n)
    (c : NodeState) (hi : st.color i = .Unvisited) (hc : c ≠ .Unvisited) :
    unvisitedCount (setColor st i c) < unvisitedCount st := by
  refine Finset.card_lt_card ⟨?_, ?_⟩
  · intro j hj
    simp only [setColor, Finset.mem_filter, Finset.mem_univ, true_and] at hj ⊢
    by_cases hji : j = i
    · rw [if_pos hji] at hj
      exact absurd hj hc
    · rwa [if_neg hji] at hj
  · intro hsub
    have hi2 := hsub (Finset.mem_filter.mpr ⟨Finset.mem_univ i, hi⟩)
    simp only [setColor, Finset.mem_filter, Finset.mem_univ, true_and, if_pos rfl] at hi2
    exact hc hi2

theorem unvisitedCount_push {n : Nat} (st : St n) (i : Fin n) :
    unvisitedCount (push st i) = unvisitedCount st := rfl

/-- Lexicographic-order helper for the three-component termination measure. -/
theorem lex3_lemma {a1 a2 b1 b2 c1 c2 : Nat}
    (h : a1 < a2 ∨ (a1 ≤ a2 ∧ b1 < b2) ∨ (a1 ≤ a2 ∧ b1 = b2 ∧ c1 < c2)) :
    Prod.Lex (· < ·) (Prod.Lex (· < ·) (· < ·))
      ((a1, b1, c1) : Nat × Nat × Nat) ((a2, b2, c2) : Nat × Nat × Nat) := by
  rcases h with h | ⟨ha, hb⟩ | ⟨ha, hb, hc⟩
  · exact Prod.Lex.left _ _ h
  · rcases Nat.lt_or_ge a1 a2 with h2 | h2
    · exact Prod.Lex.left _ _ h2
    · have : a1 = a2 := Nat.le_antisymm ha h2
      subst this
      exact Prod.Lex.right _ (Prod.Lex.left _ _ hb)
  · rcases Nat.lt_or_ge a1 a2 with h2 | h2
    · exact Prod.Lex.left _ _ h2
    · have : a1 = a2 := Nat.le_antisymm ha h2
      subst this
      subst hb
      exact Prod.Lex.right _ (Prod.Lex.right _ hc)

/-- The three mutually recursive loops of the source as one call type. -/
inductive Call (n : Nat) where
  | visit (node : Fin n)
  | edges (node : Fin n) (es : List (Rel n))
  | force (rs : List (Rel n))

/-- Secondary termination component. -/
def callTag {n : Nat} : Call n → Nat
  | .visit _ => 0
  | .force _ => 1
  | .edges _ _ => 2

/-- Tertiary termination component. -/
def callLen {n : Nat} : Call n → Nat
  | .visit _ => 0
  | .force rs => rs.length
  | .edges _ es => es.length

/-- The tail of `visit`: unless the node was already force-finished, mark it
`Visited` and push it onto the commit order. -/
def finalize {n : Nat} (node : Fin n) (st : St n) : St n :=
  if st.color node ≠ NodeState.Visited then push (setColor st node .Visited) node else st

theorem unvisitedCount_finalize_le {n : Nat} (node : Fin n) (st : St n) :
    unvisitedCount (finalize node st) ≤ unvisitedCount st := by
  unfold finalize
  split
  · rw [unvisitedCount_push]
    exact unvisitedCount_setColor_le _ _ _ (by simp)
  · exact le_refl _

/-- The DFS of `getMetadatasInCommitOrder`.  `visit node`: return unless
unvisited, else mark `Visiting`, process the node's edges, then (unless the
forced finish already did) mark `Visited` and push.  `edges node es`: skip
edges with no foreign key; recurse into unvisited targets; on a `Visiting`
target look for a reverse relation and, when the current edge outweighs it,
force-finish the target (visit all its relation targets, mark it `Visited`,
push it); ignore visited targets.  `force rs`: visit every relation target. -/
def run {n : Nat} (sch : Schema n) :
    (c : Call n) → (st : St n) → {r : St n // unvisitedCount r ≤ unvisitedCount st}
  | .visit node, st =>
    if hcu : st.color node = .Unvisited then
      have h1 : unvisitedCount (setColor st node .Visiting) < unvisitedCount st :=
        unvisitedCount_setColor_lt st node .Visiting hcu (by simp)
      match run sch (.edges node (sch.rels node)) (setColor st node .Visiting) with
      | ⟨st2, h2⟩ =>
        ⟨finalize node st2,
          le_trans (unvisitedCount_finalize_le node st2) (le_trans h2 (le_of_lt h1))⟩
    else ⟨st, le_refl _⟩
  | .edges _ [], st => ⟨st, le_refl _⟩
  | .edges node (e :: es), st =>
    if e.hasForeignKey = false then run sch (.edges node es) st
    else
      match st.color e.target with
      | .Unvisited =>
        match run sch (.visit e.target) st with
        | ⟨st1, h1⟩ =>
          match run sch (.edges node es) st1 with
          | ⟨st2, h2⟩ => ⟨st2, le_trans h2 h1⟩
      | .Visiting =>
        match (sch.rels e.target).find? (fun r => decide (r.target = node)) with
        | none => run sch (.edges node es) st
        | some rev =>
          if getWeight e > getWeight rev then
            match run sch (.force (sch.rels e.target)) st with
            | ⟨st1, h1⟩ =>
              have h2 : unvisitedCount (push (setColor st1 e.target .Visited) e.target) ≤
                  unvisitedCount st := by
                rw [unvisitedCount_push]
                exact le_trans (unvisitedCount_setColor_le _ _ _ (by simp)) h1
              match run sch (.edges node es)
                  (push (setColor st1 e.target .Visited) e.target) with
              | ⟨st3, h3⟩ => ⟨st3, le_trans h3 h2⟩
          else run sch (.edges node es) st
      | .Visited => run sch (.edges node es) st
  | .force [], st => ⟨st, le_refl _⟩
  | .force (r :: rs), st =>
    match run sch (.visit r.target) st with
    | ⟨st1, h1⟩ =>
      match run sch (.force rs) st1 with
      | ⟨st2, h2⟩ => ⟨st2, le_trans h2 h1⟩
termination_by c st => (unvisitedCount st, callTag c, callLen c)
decreasing_by
  all_goals simp only [callTag, callLen, List.length_cons]
  all_goals apply lex3_lemma
  all_goals omega

/-- The DFS as a plain state transformer. -/
def runV {n : Nat} (sch : Schema n) (c : Call n) (st : St n) : St n :=
  (run sch c st).val

theorem unvisitedCount_runV_le {n : Nat} (sch : Schema n) (c : Call n) (st : St n) :
    unvisitedCount (runV sch c st) ≤ unvisitedCount st :=
  (run sch c st).prop

/-- The driver loop of `getMetadatasInCommitOrder`: visit every entity metadata
in registration order, starting from all-unvisited and an empty order. -/
def runAll {n : Nat} (sch : Schema n) : St n :=
  (List.finRange n).foldl (fun st node => runV sch (.visit node) st)
    ⟨fun _ => .Unvisited, []⟩

/-- `getMetadatasInCommitOrder`: the commit order produced by the DFS. -/
def getMetadatasInCommitOrder {n : Nat} (sch : Schema n) : List (Fin n) :=
  (runAll sch).order

@[simp]
theorem setColor_color {n : Nat} (st : St n) (i : Fin n) (c : NodeState) (j : Fin n) :
    (setColor st i c).color j = if j = i then c else st.color j := rfl

@[simp]
theorem setColor_order {n : Nat} (st : St n) (i : Fin n) (c : NodeState) :
    (setColor st i c).order = st.order := rfl

@[simp]
theorem push_color {n : Nat} (st : St n) (i : Fin n) (j : Fin n) :
    (push st i).color j = st.color j := rfl

@[simp]
theorem push_order {n : Nat} (st : St n) (i : Fin n) :
    (push st i).order = st.order ++ [i] := rfl

theorem run_visit_skip {n : Nat} (sch : Schema n) (node : Fin n) (st : St n)
    (hcu : ¬ st.color node = .Unvisited) :
    (run sch (.visit node) st).val = st := by
  rw [run.eq_def]
  simp [hcu]

theorem run_visit_go {n : Nat} (sch : Schema n) (node : Fin n) (st : St n)
    (hcu : st.color node = .Unvisited) :
    (run sch (.visit node) st).val =
      finalize node
        (run sch (.edges node (sch.rels node)) (setColor st node .Visiting)).val := by
  rw [run.eq_def]
  simp only [hcu, dif_pos]

theorem run_edges_nil {n : Nat} (sch : Schema n) (node : Fin n) (st : St n) :
    (run sch (.edges node []) st).val = st := by
  rw [run.eq_def]

theorem run_edges_nofk {n : Nat} (sch : Schema n) (node : Fin n) (e : Rel n)
    (es : List (Rel n)) (st : St n) (hfk : e.hasForeignKey = false) :
    (run sch (.edges node (e :: es)) st).val = (run sch (.edges node es) st).val := by
  rw [run.eq_def]
  simp [hfk]

theorem run_edges_unvisited {n : Nat} (sch : Schema n) (node : Fin n) (e : Rel n)
    (es : List (Rel n)) (st : St n) (hfk : e.hasForeignKey = true)
    (hcol : st.color e.target = .Unvisited) :
    (run sch (.edges node (e :: es)) st).val =
      (run sch (.edges node es) (run sch (.visit e.target) st).val).val := by
  rw [run.eq_def]
  simp only [hfk, Bool.true_eq_false, if_neg (by simp : ¬ (true = false)), hcol]
  rcases hA : run sch (.visit e.target) st with ⟨st1, h1⟩
  rcases hB : run sch (.edges node es) st1 with ⟨st2, h2⟩
  simp [hA, hB]

theorem run_edges_visiting_none {n : Nat} (sch : Schema n) (node : Fin n) (e : Rel n)
    (es : List (Rel n)) (st : St n) (hfk : e.hasForeignKey = true)
    (hcol : st.color e.target = .Visiting)
    (hfind : (sch.rels e.target).find? (fun r => decide (r.target = node)) = none) :
    (run sch (.edges node (e :: es)) st).val = (run sch (.edges node es) st).val := by
  rw [run.eq_def]
  simp only [hfk, Bool.true_eq_false, if_neg (by simp : ¬ (true = false)), hcol, hfind]
  simp

theorem run_edges_visiting_light {n : Nat} (sch : Schema n) (node : Fin n) (e : Rel n)
    (es : List (Rel n)) (st : St n) (rev : Rel n) (hfk : e.hasForeignKey = true)
    (hcol : st.color e.target = .Visiting)
    (hfind : (sch.rels e.target).find? (fun r => decide (r.target = node)) = some rev)
    (hw : ¬ getWeight e > getWeight rev) :
    (run sch (.edges node (e :: es)) st).val = (run sch (.edges node es) st).val := by
  rw [run.eq_def]
  simp only [hfk, Bool.true_eq_false, if_neg (by simp : ¬ (true = false)), hcol, hfind,
    if_neg hw]
  simp

theorem run_edges_visiting_heavy {n : Nat} (sch : Schema n) (node : Fin n) (e : Rel n)
    (es : List (Rel n)) (st : St n) (rev : Rel n) (hfk : e.hasForeignKey = true)
    (hcol : st.color e.target = .Visiting)
    (hfind : (sch.rels e.target).find? (fun r => decide (r.target = node)) = some rev)
    (hw : getWeight e > getWeight rev) :
    (run sch (.edges node (e :: es)) st).val =
      (run sch (.edges node es)
        (push (setColor (run sch (.force (sch.rels e.target)) st).val
          e.target .Visited) e.target)).val := by
  rw [run.eq_def]
  simp only [hfk, Bool.true_eq_false, if_neg (by simp : ¬ (true = false)), hcol, hfind,
    if_pos hw]
  rcases hA : run sch (.force (sch.rels e.target)) st with ⟨st1, h1⟩
  rcases hB : run sch (.edges node es) (push (setColor st1 e.target .Visited) e.target)
    with ⟨st3, h3⟩
  simp [hA, hB]

theorem run_edges_visited {n : Nat} (sch : Schema n) (node : Fin n) (e : Rel n)
    (es : List (Rel n)) (st : St n) (hfk : e.hasForeignKey = true)
    (hcol : st.color e.target = .Visited) :
    (run sch (.edges node (e :: es)) st).val = (run sch (.edges node es) st).val := by
  rw [run.eq_def]
  simp only [hfk, Bool.true_eq_false, if_neg (by simp : ¬ (true = false)), hcol]
  simp

theorem run_force_nil {n : Nat} (sch : Schema n) (st : St n) :
    (run sch (.force []) st).val = st := by
  rw [run.eq_def]

theorem run_force_cons {n : Nat} (sch : Schema n) (r : Rel n) (rs : List (Rel n))
    (st : St n) :
    (run sch (.force (r :: rs)) st).val =
      (run sch (.force rs) (run sch (.visit r.target) st).val).val := by
  rw [run.eq_def]

theorem runV_visit_skip {n : Nat} (sch : Schema n) (node : Fin n) (st : St n)
    (hcu : ¬ st.color node = .Unvisited) :
    runV sch (.visit node) st = st := run_visit_skip sch node st hcu

theorem runV_visit_go {n : Nat} (sch : Schema n) (node : Fin n) (st : St n)
    (hcu : st.color node = .Unvisited) :
    runV sch (.visit node) st =
      finalize node (runV sch (.edges node (sch.rels node)) (setColor st node .Visiting)) :=
  run_visit_go sch node st hcu

theorem runV_edges_nil {n : Nat} (sch : Schema n) (node : Fin n) (st : St n) :
    runV sch (.edges node []) st = st := run_edges_nil sch node st

theorem runV_edges_nofk {n : Nat} (sch : Schema n) (node : Fin n) (e : Rel n)
    (es : List (Rel n)) (st : St n) (hfk : e.hasForeignKey = false) :
    runV sch (.edges node (e :: es)) st = runV sch (.edges node es) st :=
  run_edges_nofk sch node e es st hfk

theorem runV_edges_unvisited {n : Nat} (sch : Schema n) (node : Fin n) (e : Rel n)
    (es : List (Rel n)) (st : St n) (hfk : e.hasForeignKey = true)
    (hcol : st.color e.target = .Unvisited) :
    runV sch (.edges node (e :: es)) st =
      runV sch (.edges node es) (runV sch (.visit e.target) st) :=
  run_edges_unvisited sch node e es st hfk hcol

theorem runV_edges_visiting_none {n : Nat} (sch : Schema n) (node : Fin n) (e : Rel n)
    (es : List (Rel n)) (st : St n) (hfk : e.hasForeignKey = true)
    (hcol : st.color e.target = .Visiting)
    (hfind : (sch.rels e.target).find? (fun r => decide (r.target = node)) = none) :
    runV sch (.edges node (e :: es)) st = runV sch (.edges node es) st :=
  run_edges_visiting_none sch node e es st hfk hcol hfind

theorem runV_edges_visiting_light {n : Nat} (sch : Schema n) (node : Fin n) (e : Rel n)
    (es : List (Rel n)) (st : St n) (rev : Rel n) (hfk : e.hasForeignKey = true)
    (hcol : st.color e.target = .Visiting)
    (hfind : (sch.rels e.target).find? (fun r => decide (r.target = node)) = some rev)
    (hw : ¬ getWeight e > getWeight rev) :
    runV sch (.edges node (e :: es)) st = runV sch (.edges node es) st :=
  run_edges_visiting_light sch node e es st rev hfk hcol hfind hw

theorem runV_edges_visiting_heavy {n : Nat} (sch : Schema n) (node : Fin n) (e : Rel n)
    (es : List (Rel n)) (st : St n) (rev : Rel n) (hfk : e.hasForeignKey = true)
    (hcol : st.color e.target = .Visiting)
    (hfind : (sch.rels e.target).find? (fun r => decide (r.target = node)) = some rev)
    (hw : getWeight e > getWeight rev) :
    runV sch (.edges node (e :: es)) st =
      runV sch (.edges node es)
        (push (setColor (runV sch (.force (sch.rels e.target)) st) e.target .Visited)
          e.target) :=
  run_edges_visiting_heavy sch node e es st rev hfk hcol hfind hw

theorem runV_edges_visited {n : Nat} (sch : Schema n) (node : Fin n) (e : Rel n)
    (es : List (Rel n)) (st : St n) (hfk : e.hasForeignKey = true)
    (hcol : st.color e.target = .Visited) :
    runV sch (.edges node (e :: es)) st = runV sch (.edges node es) st :=
  run_edges_visited sch node e es st hfk hcol

theorem runV_force_nil {n : Nat} (sch : Schema n) (st : St n) :
    runV sch (.force []) st = st := run_force_nil sch st

theorem runV_force_cons {n : Nat} (sch : Schema n) (r : Rel n) (rs : List (Rel n))
    (st : St n) :
    runV sch (.force (r :: rs)) st =
      runV sch (.force rs) (runV sch (.visit r.target) st) :=
  run_force_cons sch r rs st

theorem finalize_of_ne {n : Nat} (node : Fin n) (st : St n)
    (h : st.color node ≠ NodeState.Visited) :
    finalize node st = push (setColor st node .Visited) node := by
  simp [finalize, h]

/-- Invariant of the DFS state: the commit order has no duplicates, a node is
in it exactly when its color is `Visited`, and every foreign-key target of a
node already emitted was emitted strictly earlier. -/
def Inv {n : Nat} (sch : Schema n) (st : St n) : Prop :=
  st.order.Nodup ∧
  (∀ i : Fin n, i ∈ st.order ↔ st.color i = .Visited) ∧
  (∀ X : Fin n, X ∈ st.order → ∀ e ∈ sch.rels X, e.hasForeignKey = true →
    e.target ∈ st.order ∧ st.order.indexOf e.target < st.order.indexOf X)

/-- Precondition of each recursive call, under a rank function that drops
across every foreign-key edge: the node being processed ranks strictly below
(for the edge loop, at most at) every node still on the DFS stack, i.e.
colored `Visiting`.  The forced-finish loop is unreachable under such a rank,
so its precondition is `False`. -/
def Pre {n : Nat} (sch : Schema n) (rank : Fin n → Nat) : Call n → St n → Prop
  | .visit node, st => Inv sch st ∧ ∀ i, st.color i = .Visiting → rank node < rank i
  | .edges node es, st => Inv sch st ∧
      (∀ e ∈ es, e.hasForeignKey = true → rank e.target < rank node) ∧
      (∀ i, st.color i = .Visiting → rank node ≤ rank i)
  | .force _, _ => False

/-- Postcondition: the invariant is preserved, the commit order only grows,
the `Visiting` set is unchanged, and the visited node (resp. every
foreign-key target of the processed edges) has been emitted. -/
def Post {n : Nat} (sch : Schema n) : Call n → St n → St n → Prop
  | .visit node, st, st' => Inv sch st' ∧ (∃ tl, st'.order = st.order ++ tl) ∧
      (∀ i, st'.color i = .Visiting ↔ st.color i = .Visiting) ∧ node ∈ st'.order
  | .edges _ es, st, st' => Inv sch st' ∧ (∃ tl, st'.order = st.order ++ tl) ∧
      (∀ i, st'.color i = .Visiting ↔ st.color i = .Visiting) ∧
      (∀ e ∈ es, e.hasForeignKey = true → e.target ∈ st'.order)
  | .force _, _, _ => True

theorem run_spec {n : Nat} (sch : Schema n) (rank : Fin n → Nat)
    (hrank : ∀ X : Fin n, ∀ e ∈ sch.rels X, e.hasForeignKey = true →
      rank e.target < rank X)
    (c : Call n) (st : St n) (hpre : Pre sch rank c st) :
    Post sch c st (runV sch c st) := by
  match c with
  | .force rs =>
    simp only [Pre] at hpre
  | .visit node =>
    simp only [Pre] at hpre
    obtain ⟨hInv, hvis⟩ := hpre
    by_cases hcu : st.color node = .Unvisited
    · rw [runV_visit_go sch node st hcu]
      have hpre1 : Pre sch rank (.edges node (sch.rels node)) (setColor st node .Visiting) := by
        refine ⟨⟨hInv.1, fun i => ?_, fun X hX => ?_⟩, fun e he hfk => hrank node e he hfk,
          fun i hi => ?_⟩
        · simp only [setColor_order, setColor_color]
          rw [hInv.2.1 i]
          by_cases hin : i = node
          · subst hin
            simp [hcu]
          · simp [hin]
        · simpa using hInv.2.2 X hX
        · simp only [setColor_color] at hi
          by_cases hin : i = node
          · subst hin
            exact le_refl _
          · rw [if_neg hin] at hi
            exact le_of_lt (hvis i hi)
      have hlt : unvisitedCount (setColor st node .Visiting) < unvisitedCount st :=
        unvisitedCount_setColor_lt st node .Visiting hcu (by simp)
      have hrec := run_spec sch rank hrank (.edges node (sch.rels node))
        (setColor st node .Visiting) hpre1
      simp only [Post] at hrec ⊢
      obtain ⟨hInvE, ⟨tl, htl⟩, hviff, htgt⟩ := hrec
      rw [setColor_order] at htl
      set E := runV sch (.edges node (sch.rels node)) (setColor st node .Visiting) with hE
      have hEvisiting : E.color node = .Visiting := by
        rw [hviff node]
        simp
      have hnotmem : node ∉ E.order := fun hmem => by
        have := (hInvE.2.1 node).mp hmem
        rw [hEvisiting] at this
        exact absurd this (by simp)
      rw [finalize_of_ne node E (by rw [hEvisiting]; simp)]
      refine ⟨⟨?_, fun i => ?_, fun X hX e' he' hfk' => ?_⟩, ⟨tl ++ [node], by simp [htl]⟩,
        fun i => ?_, by simp⟩
      · simp only [push_order, setColor_order]
        exact List.nodup_append.mpr ⟨hInvE.1, List.nodup_singleton node,
          fun a ha hb => by simp at hb; subst hb; exact hnotmem ha⟩
      · simp only [push_order, setColor_order, push_color, setColor_color,
          List.mem_append, List.mem_singleton]
        by_cases hin : i = node
        · subst hin
          simp
        · simp [hin, hInvE.2.1 i]
      · simp only [push_order, setColor_order, List.mem_append, List.mem_singleton] at hX
        rcases hX with hX | hX
        · have hprev := hInvE.2.2 X hX e' he' hfk'
          refine ⟨by simp [hprev.1], ?_⟩
          simp only [push_order, setColor_order]
          rw [List.indexOf_append_of_mem hprev.1, List.indexOf_append_of_mem hX]
          exact hprev.2
        · subst hX
          have htin : e'.target ∈ E.order := htgt e' he' hfk'
          refine ⟨by simp [htin], ?_⟩
          simp only [push_order, setColor_order]
          rw [List.indexOf_append_of_mem htin, List.indexOf_append_of_not_mem hnotmem,
            List.indexOf_cons_self]
          have := List.indexOf_lt_length.mpr htin
          omega
      · simp only [push_color, setColor_color]
        by_cases hin : i = node
        · subst hin
          rw [if_pos rfl, hcu]
          constructor
          · intro h
            exact absurd h.symm (by simp)
          · intro h
            exact absurd h.symm (by simp)
        · rw [if_neg hin, hviff i]
          simp [hin]
    · rw [runV_visit_skip sch node st hcu]
      have hnv : st.color node ≠ .Visiting := fun h =>
        absurd (hvis node h) (lt_irrefl _)
      have hvd : st.color node = .Visited := by
        cases h : st.color node
        · exact absurd h hcu
        · exact absurd h hnv
        · rfl
      simp only [Post]
      exact ⟨hInv, ⟨[], by simp⟩, fun i => trivial, (hInv.2.1 node).mpr hvd⟩
  | .edges node [] =>
    rw [runV_edges_nil]
    simp only [Pre] at hpre
    simp only [Post]
    exact ⟨hpre.1, ⟨[], by simp⟩, fun i => trivial, by simp⟩
  | .edges node (e :: es) =>
    simp only [Pre] at hpre
    obtain ⟨hInv, hrk, hvis⟩ := hpre
    by_cases hfk : e.hasForeignKey = true
    · cases hcol : st.color e.target with
      | Unvisited =>
        rw [runV_edges_unvisited sch node e es st hfk hcol]
        have hpreV : Pre sch rank (.visit e.target) st :=
          ⟨hInv, fun i hi =>
            lt_of_lt_of_le (hrk e (List.mem_cons_self e es) hfk) (hvis i hi)⟩
        have hrec1 := run_spec sch rank hrank (.visit e.target) st hpreV
        simp only [Post] at hrec1
        obtain ⟨hInv1, ⟨tl1, htl1⟩, hviff1, hmem1⟩ := hrec1
        have hle1 : unvisitedCount (runV sch (.visit e.target) st) ≤ unvisitedCount st :=
          unvisitedCount_runV_le sch (.visit e.target) st
        have hpre2 : Pre sch rank (.edges node es) (runV sch (.visit e.target) st) :=
          ⟨hInv1, fun e' he' => hrk e' (List.mem_cons_of_mem e he'),
            fun i hi => hvis i ((hviff1 i).mp hi)⟩
        have hrec2 := run_spec sch rank hrank (.edges node es)
          (runV sch (.visit e.target) st) hpre2
        simp only [Post] at hrec2 ⊢
        obtain ⟨hInv2, ⟨tl2, htl2⟩, hviff2, htgt2⟩ := hrec2
        refine ⟨hInv2, ⟨tl1 ++ tl2, by rw [htl2, htl1, List.append_assoc]⟩,
          fun i => (hviff2 i).trans (hviff1 i), fun e' he' hfk' => ?_⟩
        rcases List.mem_cons.mp he' with he' | he'
        · subst he'
          rw [htl2]
          exact List.mem_append_left _ hmem1
        · exact htgt2 e' he' hfk'
      | Visiting =>
        exact absurd (hrk e (List.mem_cons_self e es) hfk)
          (not_lt.mpr (hvis e.target hcol))
      | Visited =>
        rw [runV_edges_visited sch node e es st hfk hcol]
        have hpre2 : Pre sch rank (.edges node es) st :=
          ⟨hInv, fun e' he' => hrk e' (List.mem_cons_of_mem e he'), hvis⟩
        have hrec2 := run_spec sch rank hrank (.edges node es) st hpre2
        simp only [Post] at hrec2 ⊢
        obtain ⟨hInv2, ⟨tl2, htl2⟩, hviff2, htgt2⟩ := hrec2
        refine ⟨hInv2, ⟨tl2, htl2⟩, hviff2, fun e' he' hfk' => ?_⟩
        rcases List.mem_cons.mp he' with he' | he'
        · subst he'
          rw [htl2]
          exact List.mem_append_left _ ((hInv.2.1 e'.target).mpr hcol)
        · exact htgt2 e' he' hfk'
    · have hfk' : e.hasForeignKey = false := by
        cases h : e.hasForeignKey
        · rfl
        · exact absurd h hfk
      rw [runV_edges_nofk sch node e es st hfk']
      have hpre2 : Pre sch rank (.edges node es) st :=
        ⟨hInv, fun e' he' => hrk e' (List.mem_cons_of_mem e he'), hvis⟩
      have hrec2 := run_spec sch rank hrank (.edges node es) st hpre2
      simp only [Post] at hrec2 ⊢
      obtain ⟨hInv2, ⟨tl2, htl2⟩, hviff2, htgt2⟩ := hrec2
      refine ⟨hInv2, ⟨tl2, htl2⟩, hviff2, fun e' he' hfk2 => ?_⟩
      rcases List.mem_cons.mp he' with he' | he'
      · subst he'
        exact absurd hfk2 (by simp [hfk'])
      · exact htgt2 e' he' hfk2
termination_by (unvisitedCount st, callTag c, callLen c)
decreasing_by
  all_goals simp only [callTag, callLen, List.length_cons]
  all_goals apply lex3_lemma
  all_goals omega

theorem visitAll_spec {n : Nat} (sch : Schema n) (rank : Fin n → Nat)
    (hrank : ∀ X : Fin n, ∀ e ∈ sch.rels X, e.hasForeignKey = true →
      rank e.target < rank X)
    (l : List (Fin n)) (st : St n)
    (hInv : Inv sch st) (hnv : ∀ i, st.color i ≠ .Visiting) :
    Inv sch (l.foldl (fun s nd => runV sch (.visit nd) s) st) ∧
    (∀ i, (l.foldl (fun s nd => runV sch (.visit nd) s) st).color i ≠ .Visiting) ∧
    (∃ tl, (l.foldl (fun s nd => runV sch (.visit nd) s) st).order = st.order ++ tl) ∧
    (∀ x ∈ l, x ∈ (l.foldl (fun s nd => runV sch (.visit nd) s) st).order) := by
  induction l generalizing st with
  | nil => exact ⟨hInv, hnv, ⟨[], by simp⟩, by simp⟩
  | cons x xs ih =>
    simp only [List.foldl_cons]
    have hpre : Pre sch rank (.visit x) st := ⟨hInv, fun i hi => absurd hi (hnv i)⟩
    have hpost := run_spec sch rank hrank (.visit x) st hpre
    simp only [Post] at hpost
    obtain ⟨hInv1, ⟨tl1, htl1⟩, hviff1, hmem1⟩ := hpost
    have hnv1 : ∀ i, (runV sch (.visit x) st).color i ≠ .Visiting := fun i hi =>
      hnv i ((hviff1 i).mp hi)
    obtain ⟨hInv2, hnv2, ⟨tl2, htl2⟩, hall2⟩ := ih (runV sch (.visit x) st) hInv1 hnv1
    refine ⟨hInv2, hnv2, ⟨tl1 ++ tl2, by rw [htl2, htl1, List.append_assoc]⟩, ?_⟩
    intro y hy
    rcases List.mem_cons.mp hy with hy | hy
    · subst hy
      rw [htl2]
      exact List.mem_append_left _ hmem1
    · exact hall2 y hy

/-- A three-node schema closing a relation cycle through two nullable
foreign-key edges: node 0 references node 1 (nullable), node 1 references
node 2 (nullable), and node 2 references node 0 with a non-nullable
foreign key.  The graph restricted to non-nullable non-self foreign-key
edges has the single edge 2 → 0 and is acyclic. -/
def sch0 : Schema 3 :=
  Schema.mk (fun i : Fin 3 =>
    if i = 0 then [⟨1, true, true⟩]
    else if i = 1 then [⟨2, true, true⟩]
    else [⟨0, true, false⟩])

def t0 : St 3 := ⟨fun _ => .Unvisited, []⟩
def t1 : St 3 := setColor t0 0 .Visiting
def t2 : St 3 := setColor t1 1 .Visiting
def t3 : St 3 := setColor t2 2 .Visiting
def t4 : St 3 := push (setColor t3 2 .Visited) 2
def t5 : St 3 := push (setColor t4 1 .Visited) 1
def t6 : St 3 := push (setColor t5 0 .Visited) 0

theorem sch0_e2v : runV sch0 (.visit 2) t2 = t4 := by
  rw [runV_visit_go sch0 2 t2 rfl]
  rw [show sch0.rels 2 = [⟨0, true, false⟩] from rfl]
  rw [show setColor t2 2 .Visiting = t3 from rfl]
  rw [runV_edges_visiting_none sch0 2 ⟨0, true, false⟩ [] t3 rfl rfl rfl]
  rw [runV_edges_nil]
  rfl

theorem sch0_e1v : runV sch0 (.visit 1) t1 = t5 := by
  rw [runV_visit_go sch0 1 t1 rfl]
  rw [show sch0.rels 1 = [⟨2, true, true⟩] from rfl]
  rw [show setColor t1 1 .Visiting = t2 from rfl]
  rw [runV_edges_unvisited sch0 1 ⟨2, true, true⟩ [] t2 rfl rfl]
  rw [sch0_e2v, runV_edges_nil]
  rfl

theorem sch0_e0v : runV sch0 (.visit 0) t0 = t6 := by
  rw [runV_visit_go sch0 0 t0 rfl]
  rw [show sch0.rels 0 = [⟨1, true, true⟩] from rfl]
  rw [show setColor t0 0 .Visiting = t1 from rfl]
  rw [runV_edges_unvisited sch0 0 ⟨1, true, true⟩ [] t1 rfl rfl]
  rw [sch0_e1v, runV_edges_nil]
  rfl

/-- The DFS on `sch0` visits 0, chases the nullable chain 0 → 1 → 2, skips the
back edge 2 → 0 (node 0 is `Visiting` but `sch0.rels 0` has no relation back
to 2, so the cycle-breaking branch does not fire) and emits 2, 1, 0. -/
theorem sch0_order : getMetadatasInCommitOrder sch0 = [2, 1, 0] := by
  have hfr : List.finRange 3 = [0, 1, 2] := rfl
  simp only [getMetadatasInCommitOrder, runAll, hfr, List.foldl_cons, List.foldl_nil]
  rw [show (⟨fun _ => .Unvisited, []⟩ : St 3) = t0 from rfl]
  rw [sch0_e0v]
  rw [runV_visit_skip sch0 1 t6 (by decide)]
  rw [runV_visit_skip sch0 2 t6 (by decide)]
  rfl

/-- A two-node schema: node 0 references node 1 with a non-nullable foreign
key, node 1 has no relations. -/
def sch1 : Schema 2 :=
  Schema.mk (fun i : Fin 2 => if i = 0 then [⟨1, true, false⟩] else [])

/-- C1 counterexample.  In `sch0`, the edge 2 → 0 is a non-nullable
foreign-key relation between distinct types and the graph restricted to such
edges is acyclic (ranked by `fun i => if i = 2 then 1 else 0`), yet
`getMetadatasInCommitOrder` emits [2, 1, 0]: the referencing type 2 comes
strictly before its referenced type 0, contradicting the claim.  The DFS
cycle-break requires a direct reverse relation on the `Visiting` target, which
a cycle closed through nullable edges of third types does not provide. -/
theorem c1_counterexample :
    ((⟨0, true, false⟩ : Rel 3) ∈ sch0.rels 2 ∧
      (⟨0, true, false⟩ : Rel 3).hasForeignKey = true ∧
      (⟨0, true, false⟩ : Rel 3).isNullable = false ∧
      (⟨0, true, false⟩ : Rel 3).target ≠ (2 : Fin 3)) ∧
    (∃ rank : Fin 3 → Nat, ∀ X : Fin 3, ∀ e ∈ sch0.rels X,
      e.hasForeignKey = true → e.isNullable = false → e.target ≠ X →
      rank e.target < rank X) ∧
    getMetadatasInCommitOrder sch0 = [2, 1, 0] ∧
    ¬ (getMetadatasInCommitOrder sch0).indexOf ((⟨0, true, false⟩ : Rel 3).target) <
      (getMetadatasInCommitOrder sch0).indexOf 2 := by
  refine ⟨by decide, ⟨fun i => if i = 2 then 1 else 0, by decide⟩, sch0_order, ?_⟩
  rw [sch0_order]
  decide

/-- C1 (amended): if a rank function strictly decreases across every
foreign-key edge of the schema - i.e. the graph of all foreign-key relation
edges, nullable ones included, is acyclic - then for every foreign-key
relation edge from A to B, in particular every non-nullable one between
distinct types, both types appear in the computed commit order and B's
position strictly precedes A's. -/
theorem c1_theorem {n : Nat} (sch : Schema n) (rank : Fin n → Nat)
    (hrank : ∀ X : Fin n, ∀ e ∈ sch.rels X, e.hasForeignKey = true →
      rank e.target < rank X)
    (A : Fin n) (e : Rel n) (he : e ∈ sch.rels A) (hfk : e.hasForeignKey = true)
    (_hnn : e.isNullable = false) (_hne : e.target ≠ A) :
    e.target ∈ getMetadatasInCommitOrder sch ∧
    A ∈ getMetadatasInCommitOrder sch ∧
    (getMetadatasInCommitOrder sch).indexOf e.target <
      (getMetadatasInCommitOrder sch).indexOf A := by
  have h0 : Inv sch (⟨fun _ => .Unvisited, []⟩ : St n) := by
    refine ⟨List.nodup_nil, fun i => ?_, fun X hX => absurd hX (List.not_mem_nil X)⟩
    simp
  have hnv0 : ∀ i : Fin n, (⟨fun _ => .Unvisited, []⟩ : St n).color i ≠ .Visiting := by
    intro i h
    simp at h
  obtain ⟨hInvF, hnvF, hext, hallF⟩ := visitAll_spec sch rank hrank (List.finRange n)
    (⟨fun _ => .Unvisited, []⟩ : St n) h0 hnv0
  have hF : getMetadatasInCommitOrder sch =
      ((List.finRange n).foldl (fun s nd => runV sch (.visit nd) s)
        (⟨fun _ => .Unvisited, []⟩ : St n)).order := rfl
  rw [hF]
  have hA := hallF A (List.mem_finRange A)
  have hmain := hInvF.2.2 A hA e he hfk
  exact ⟨hmain.1, hA, hmain.2⟩

/-- C1 witness: in `sch1` the ranks 1, 0 decrease across the single
foreign-key edge 0 → 1, so type 1 precedes type 0 in the commit order. -/
theorem c1_witness :
    (⟨1, true, false⟩ : Rel 2).target ∈ getMetadatasInCommitOrder sch1 ∧
    (0 : Fin 2) ∈ getMetadatasInCommitOrder sch1 ∧
    (getMetadatasInCommitOrder sch1).indexOf (⟨1, true, false⟩ : Rel 2).target <
      (getMetadatasInCommitOrder sch1).indexOf 0 :=
  c1_theorem sch1 (fun i => if i = 0 then 1 else 0) (by decide) 0
    ⟨1, true, false⟩ (by decide) rfl rfl (by decide)

end CommitOrder
